import Mathlib

/-!
Package goasync, a counted barrier over goroutines.

Verification development for `main.go` (package `goasync`): the package-level
`var wc sync.WaitGroup` and the three functions `Go`, `WaitAll`, `RunMain`.

Goroutine code is embedded as an action tree (`Act`) in continuation style.
`Go`, `WaitAll` and `RunMain` are Lean functions that build such trees from the
primitives the source uses (`wc.Add`, `wc.Done`, `wc.Wait`, the `go`
statement, `defer`).  A program state holds the counter and the pool of
goroutines; `step s i` lets goroutine `i` perform its next primitive action, and
an interleaving is a schedule: the list of goroutine ids chosen one after
another.

Semantics of the Go primitives used by the source: `wc.Add(d)` adds `d` to the
counter and panics when the result is negative; `wc.Wait()` blocks until the
counter is zero; a deferred call runs when the function returns and also while
a panic unwinds it; a panic that no `recover` stops (the package has none)
unwinds to the top of its goroutine, running the deferred calls on the way,
and then terminates the whole program.
-/

namespace Goasync

/-- Remaining code of one goroutine.  Every constructor but the three terminal
ones carries the code that runs after the action.

* `ret`: the goroutine's function has returned.
* `panic v`: a panic with value `v` is unwinding and every deferred call of the
  goroutine has already run.
* `spin`: `for {}`.
* `tick k`: an effect of client code (one increment of a shared success
  counter), then `k`.
* `wcAdd delta k neg`: `wc.Add(delta)`, then `k`; when the counter went
  negative `Add` panics and `neg` runs instead.
* `wcWait k`: `wc.Wait()`, then `k`.
* `goStmt body k`: the statement `go func() { body }()`, then `k`. -/
inductive Act where
  | ret : Act
  | panic (v : Nat) : Act
  | spin : Act
  | tick (k : Act) : Act
  | wcAdd (delta : Int) (k : Act) (neg : Act) : Act
  | wcWait (k : Act) : Act
  | goStmt (body : Act) (k : Act) : Act
  deriving DecidableEq

/-- Sequencing `p; q`: `q` runs when `p` returns; a panic of `p` skips `q`. -/
def Act.andThen : Act → Act → Act
  | .ret, q => q
  | .panic v, _ => .panic v
  | .spin, _ => .spin
  | .tick k, q => .tick (k.andThen q)
  | .wcAdd d k h, q => .wcAdd d (k.andThen q) (h.andThen q)
  | .wcWait k, q => .wcWait (k.andThen q)
  | .goStmt b k, q => .goStmt b (k.andThen q)

/-- Function body `defer deferred(); body`: the deferred call runs when `body`
returns and also when `body` panics; in the second case the panic goes on
unwinding after the deferred call has returned. -/
def Act.withDefer (deferred : Act) : Act → Act
  | .ret => deferred
  | .panic v => deferred.andThen (.panic v)
  | .spin => .spin
  | .tick k => .tick (Act.withDefer deferred k)
  | .wcAdd d k h => .wcAdd d (Act.withDefer deferred k) (Act.withDefer deferred h)
  | .wcWait k => .wcWait (Act.withDefer deferred k)
  | .goStmt b k => .goStmt b (Act.withDefer deferred k)

/-- The goroutine has terminated: it returned, or a panic reached its top. -/
def Act.isTerm : Act → Bool
  | .ret => true
  | .panic _ => true
  | _ => false

/-- The goroutine stands between `wc.Add(1)` and the `go` statement of `Go`. -/
def Act.isGo : Act → Bool
  | .goStmt _ _ => true
  | _ => false

/-- Panic value standing for "sync: negative WaitGroup counter". -/
def negativeCounter : Nat := 0

/-- The call `wc.Add(delta)` of `sync.WaitGroup`. -/
def wcAddCall (delta : Int) : Act := .wcAdd delta .ret (.panic negativeCounter)

/-- The call `wc.Done()`, which is `wc.Add(-1)`. -/
def wcDone : Act := wcAddCall (-1)

/-- The call `wc.Wait()`. -/
def wcWaitCall : Act := .wcWait .ret

/-- Body of the goroutine started by `Go`: `defer wc.Done(); callback()`. -/
def goClosure (callback : Act) : Act := Act.withDefer wcDone callback

/-- Source `func Go(callback func())`: `wc.Add(1)`, then `go func() { ... }()`. -/
def Go (callback : Act) : Act :=
  (wcAddCall 1).andThen (.goStmt (goClosure callback) .ret)

/-- Source `func WaitAll()`: `wc.Wait()`. -/
def WaitAll : Act := wcWaitCall

/-- Source `func RunMain(mainFunc func())`: `defer WaitAll(); mainFunc()`. -/
def RunMain (mainFunc : Act) : Act := Act.withDefer WaitAll mainFunc

/-- Client code: what a callback or an entry function can do with this
package.  The counter `wc` is unexported, so client code reaches it only
through `Go`, `WaitAll` and `RunMain`. -/
inductive Prog where
  | ret : Prog
  | panic (v : Nat) : Prog
  | spin : Prog
  | tick (k : Prog) : Prog
  | go (callback : Prog) (k : Prog) : Prog
  | waitAll (k : Prog) : Prog
  | runMain (mainFunc : Prog) (k : Prog) : Prog
  deriving DecidableEq

/-- Client code as an action tree: each call of the package is replaced by the
body of the called function. -/
def Prog.toAct : Prog → Act
  | .ret => .ret
  | .panic v => .panic v
  | .spin => .spin
  | .tick k => .tick k.toAct
  | .go cb k => (Go cb.toAct).andThen k.toAct
  | .waitAll k => WaitAll.andThen k.toAct
  | .runMain f k => (RunMain f.toAct).andThen k.toAct

/-- Program state.  `wc` is the counter of the package's WaitGroup, `threads`
the goroutines (position = goroutine id, goroutine 0 is the original one),
`hits` the number of client ticks so far, and `crashed` holds the value of the
unrecovered panic that terminated the program. -/
structure State where
  wc : Int
  threads : List Act
  hits : Nat
  crashed : Option Nat
  deriving DecidableEq

/-- Initial state: count zero, no task, the original goroutine about to run
`main`. -/
def init (main : Act) : State :=
  { wc := 0, threads := [main], hits := 0, crashed := none }

/-- What a step did. -/
inductive Kind where
  | idle : Kind
  | tick : Kind
  | add (delta : Int) : Kind
  | wait : Kind
  | spawn : Kind
  | fatal (v : Nat) : Kind
  deriving DecidableEq

/-- One step of goroutine `i`, or `none` when it cannot move: the program has
crashed, the goroutine does not exist or has returned, or it is blocked in
`wc.Wait()` with a non-zero counter.  A panic that reaches the top of a
goroutine terminates the program. -/
def step (s : State) (i : Nat) : Option (Kind × State) :=
  if s.crashed.isSome then none
  else
    match s.threads[i]? with
    | none => none
    | some .ret => none
    | some (.panic v) => some (.fatal v, { s with crashed := some v })
    | some .spin => some (.idle, s)
    | some (.tick k) =>
        some (.tick, { s with hits := s.hits + 1, threads := s.threads.set i k })
    | some (.wcAdd d k h) =>
        some (.add d, { s with wc := s.wc + d,
                               threads := s.threads.set i (if s.wc + d < 0 then h else k) })
    | some (.wcWait k) =>
        if s.wc = 0 then some (.wait, { s with threads := s.threads.set i k }) else none
    | some (.goStmt b k) =>
        some (.spawn, { s with threads := s.threads.set i k ++ [b] })

/-- State after goroutine `i` was scheduled: its step, or no change when it
cannot move. -/
def next (s : State) (i : Nat) : State :=
  match step s i with
  | some (_, s') => s'
  | none => s

/-- State after the schedule `sched`. -/
def exec (s : State) : List Nat → State
  | [] => s
  | i :: sched => exec (next s i) sched

/-- An action of goroutine `tid`. -/
structure Event where
  tid : Nat
  kind : Kind
  deriving DecidableEq

/-- Actions performed along the schedule `sched`, in order. -/
def trace (s : State) : List Nat → List Event
  | [] => []
  | i :: sched =>
    match step s i with
    | some (e, s') => ⟨i, e⟩ :: trace s' sched
    | none => trace s sched

/-- Change of the counter made by an action. -/
def Kind.delta : Kind → Int
  | .add d => d
  | _ => 0

/-- Total change of the counter made by the actions of a trace. -/
def netChange (tr : List Event) : Int := (tr.map (fun e => e.kind.delta)).sum

/-- Number of increments `wc.Add(1)` in a trace. -/
def increments (tr : List Event) : Nat := (tr.filter (fun e => decide (e.kind = .add 1))).length

/-- Number of decrements `wc.Done()` in a trace. -/
def decrements (tr : List Event) : Nat :=
  (tr.filter (fun e => decide (e.kind = .add (-1)))).length

/-- Number of client ticks made by an action. -/
def Kind.ticks : Kind → Nat
  | .tick => 1
  | _ => 0

/-- The crash status after an action, `old` being the status before it. -/
def Kind.crash (old : Option Nat) : Kind → Option Nat
  | .fatal v => some v
  | _ => old

/-- The next action of a goroutine seen from the goroutine alone, the counter
reading `wc`: the action, the code left afterwards and the body of the
goroutine it starts, if any.  `step` applies this to the pool (`step_inv`). -/
def fire (wc : Int) : Act → Option (Kind × Act × Option Act)
  | .ret => none
  | .panic v => some (.fatal v, .panic v, none)
  | .spin => some (.idle, .spin, none)
  | .tick k => some (.tick, k, none)
  | .wcAdd d k h => some (.add d, if wc + d < 0 then h else k, none)
  | .wcWait k => if wc = 0 then some (.wait, k, none) else none
  | .goStmt b k => some (.spawn, k, some b)

/-! ## Shape of the code of a goroutine -/

/-- Code that touches the counter only the way this package does.  With
`task = false`: code of the original goroutine, built from client actions and
calls of `Go`, `WaitAll`, `RunMain`; every `wc.Add(1)` is followed at once by
the `go` statement of `Go`.  With `task = true`: the same, inside the closure
started by `Go`, so that the code ends with the deferred `wc.Done()` as its
very last action. -/
def Act.code : Act → Bool → Bool
  | .ret, task => !task
  | .panic _, task => !task
  | .spin, _ => true
  | .tick k, task => Act.code k task
  | .wcWait k, task => Act.code k task
  | .wcAdd d k _, task =>
      (task && d == -1 && k.isTerm) ||
      (d == 1 && match k with
        | .goStmt b k' => Act.code b true && Act.code k' task
        | _ => false)
  | .goStmt _ _, _ => false

/-- Code of a goroutine that has executed the `wc.Add(1)` of `Go` and has the
`go` statement as its next action. -/
def Act.launching : Act → Bool → Bool
  | .goStmt b k, task => b.code true && k.code task
  | _, _ => false

/-- Admissible code of a goroutine: `task = false` for the original goroutine,
`task = true` for a goroutine started by `Go` (which may have terminated). -/
def Act.okAs (a : Act) (task : Bool) : Bool :=
  a.code task || a.launching task || (task && a.isTerm)

/-- What a goroutine contributes to the counter: 1 while it is a task that has
not terminated, and 1 more while it stands between `wc.Add(1)` and the `go`
statement. -/
def Act.owes (a : Act) (task : Bool) : Int :=
  (if task && !a.isTerm then 1 else 0) + (if a.isGo then 1 else 0)

/-- Every goroutine of the pool has admissible code; the first one is the
original goroutine when `task = false`, all later ones are tasks. -/
def wellShaped : List Act → Bool → Bool
  | [], _ => true
  | a :: l, task => a.okAs task && wellShaped l true

/-- Sum of the contributions `Act.owes` over the pool. -/
def owedBy : List Act → Bool → Int
  | [], _ => 0
  | a :: l, task => a.owes task + owedBy l true

/-- Number of goroutines started by `Go` that have not terminated. -/
def unfinishedTasks (s : State) : Nat :=
  (s.threads.tail.filter (fun a => !a.isTerm)).length

/-- Number of goroutines inside `Go`, between `wc.Add(1)` and the `go`
statement. -/
def launchingTasks (s : State) : Nat :=
  (s.threads.filter Act.isGo).length

/-- Code that can terminate only straight out of a `wc.Wait()`: its last
action before returning or propagating a panic is a wait for the counter to be
zero.  (The panicking branch of `wc.Add` is not followed: it is never taken
from a state that satisfies the invariant `Good`.) -/
def Act.guarded : Act → Bool
  | .ret => false
  | .panic _ => false
  | .spin => true
  | .tick k => Act.guarded k
  | .wcAdd _ k _ => Act.guarded k
  | .wcWait k => k.isTerm || Act.guarded k
  | .goStmt _ k => Act.guarded k

/-- Work that the code still holds: `ct` for every client tick and `cs` for
every `go` statement it will execute, the bodies of the goroutines it starts
included. -/
def Act.ahead (ct cs : Nat) : Act → Nat
  | .ret => 0
  | .panic _ => 0
  | .spin => 0
  | .tick k => ct + Act.ahead ct cs k
  | .wcAdd _ k _ => Act.ahead ct cs k
  | .wcWait k => Act.ahead ct cs k
  | .goStmt b k => cs + Act.ahead ct cs b + Act.ahead ct cs k

/-- Work done and work still held by the pool: ticks made, goroutines
created, and what their codes hold. -/
def total (ct cs : Nat) (s : State) : Nat :=
  ct * s.hits + cs * s.threads.length + (s.threads.map (Act.ahead ct cs)).sum

/-- Code made of `n` consecutive calls of `WaitAll`, then `k`. -/
def repeatWaitAll : Nat → Act → Act
  | 0, k => k
  | n + 1, k => WaitAll.andThen (repeatWaitAll n k)

/-- A main body that runs the code of `mainFunc` and then calls `WaitAll` at
its end (the words of the doc comment of `RunMain`), to be compared with
`RunMain mainFunc`. -/
def inlineMain (mainFunc : Act) : Act := mainFunc.andThen WaitAll

/-- The code raises no fault of its own: no `panic` ends it.  (The bodies of the
goroutines it starts are free to panic, and the panicking branch of `wc.Add`
is not followed.) -/
def Act.noPanic : Act → Bool
  | .ret => true
  | .panic _ => false
  | .spin => true
  | .tick k => Act.noPanic k
  | .wcAdd _ k _ => Act.noPanic k
  | .wcWait k => Act.noPanic k
  | .goStmt _ k => Act.noPanic k

/-- Two codes perform the same actions in the same order and end the same way;
they may differ only in what would run after a panicking `wc.Add`. -/
def Act.agree : Act → Act → Bool
  | .ret, .ret => true
  | .panic v, .panic w => v == w
  | .spin, .spin => true
  | .tick k, .tick k' => Act.agree k k'
  | .wcAdd d k _, .wcAdd d' k' _ => d == d' && Act.agree k k'
  | .wcWait k, .wcWait k' => Act.agree k k'
  | .goStmt b k, .goStmt b' k' => b == b' && Act.agree k k'
  | _, _ => false

/-- Pointwise agreement of two pools. -/
def agreeAll : List Act → List Act → Bool
  | [], [] => true
  | a :: l, b :: m => a.agree b && agreeAll l m
  | _, _ => false

/-- How a goroutine ended: `none` while it runs, `some none` when it returned,
`some (some v)` when the fault `v` reached its top. -/
def Act.outcome : Act → Option (Option Nat)
  | .ret => some none
  | .panic v => some (some v)
  | _ => none

/-- Two states with the same counter, the same ticks, the same crash status and
agreeing pools. -/
def Related (s t : State) : Prop :=
  s.wc = t.wc ∧ s.hits = t.hits ∧ s.crashed = t.crashed ∧ agreeAll s.threads t.threads = true

/-- Actions of goroutine `i` in a trace, in order. -/
def eventsOf (i : Nat) (tr : List Event) : List Kind :=
  (tr.filter (fun e => e.tid == i)).map Event.kind

/-- Number of increments `wc.Add(1)` made in a trace by goroutines other than
`i`. -/
def incrementsByOthers (i : Nat) (tr : List Event) : Nat :=
  increments (tr.filter (fun e => !(e.tid == i)))

/-- Entry function used against C9: it launches one task that ticks, then
raises the fault 7. -/
def launchThenPanic : Prog := .go (.tick .ret) (.panic 7)

/-- Program used against C2: the original goroutine launches a task that itself
launches a task, then launches one more task. -/
def nestedLaunch : Prog := .go (.go .ret .ret) (.go .ret .ret)

/-- Launch the callbacks `cbs` one after another with `Go`, then run `k`. -/
def launchAll : List Prog → Prog → Prog
  | [], k => k
  | cb :: cbs, k => .go cb (launchAll cbs k)

/-- The scenario of C5: ten tasks are launched, one whose callback raises the
fault `v` and nine (`n` before it, `m` after it) whose callbacks each increment
the shared success counter; then `WaitAll` is called. -/
def faultScenario (n m v : Nat) : Prog :=
  launchAll (List.replicate n (.tick .ret) ++ [.panic v] ++ List.replicate m (.tick .ret))
    (.waitAll .ret)

/-- Callback of a task of a chain with `n` tasks after it: it launches the next
task of the chain, if any, and returns. -/
def chainLink : Nat → Prog
  | 0 => .ret
  | n + 1 => .go (chainLink n) .ret

/-- The original goroutine of the scenario of C7: it launches the first task of
a chain of `D` tasks, then calls `WaitAll`. -/
def chainMain : Nat → Prog
  | 0 => .waitAll .ret
  | D + 1 => .go (chainLink D) (.waitAll .ret)

/-- Schedule used against C5: the original goroutine launches the ten tasks and
reaches `WaitAll` (21 turns), then the faulting task, goroutine 1, runs alone:
its deferred `wc.Done()` and the end of the program. -/
def faultFirst : List Nat := List.replicate 21 0 ++ [1, 1]

/-- Schedule in which `WaitAll` does return in the scenario of C5: the ten
tasks are launched, the nine ticking tasks run to their end, the faulting task
runs its deferred `wc.Done()`, and the original goroutine passes the wait
before the fault ends the program. -/
def faultLast : List Nat :=
  List.replicate 20 0
    ++ [2, 2, 3, 3, 4, 4, 5, 5, 6, 6, 7, 7, 8, 8, 9, 9, 10, 10] ++ [1, 0]

/-- The action is the end of the program, reported by the runtime when a panic
has reached the top of a goroutine. -/
def Kind.isFatal : Kind → Bool
  | .fatal _ => true
  | _ => false

/-- Actions of goroutine `i` in a trace, the runtime's report of a fatal panic
left out. -/
def actionsOf (i : Nat) (tr : List Event) : List Kind :=
  (eventsOf i tr).filter (fun k => !k.isFatal)

/-- Number of times goroutine `i` executed `wc.Done()` in a trace. -/
def doneCount (i : Nat) (tr : List Event) : Nat :=
  ((eventsOf i tr).filter (fun k => decide (k = .add (-1)))).length

/-- Relation between a state and the trace that led to it: the trace names
only existing goroutines; a terminated task made `wc.Done()` once, as its last
action; a task that has not terminated has not made it. -/
def DoneLast (s : State) (tr : List Event) : Prop :=
  (∀ e ∈ tr, e.tid < s.threads.length) ∧
    ∀ (i : Nat) (a : Act), 1 ≤ i → s.threads[i]? = some a →
      (a.isTerm = true →
        (actionsOf i tr).getLast? = some (.add (-1)) ∧ doneCount i tr = 1) ∧
      (a.isTerm = false → doneCount i tr = 0)

/-- Whether the goroutine at position `i` is a task, in a pool whose first
goroutine is a task exactly when `t` holds. -/
def roleAt (t : Bool) (i : Nat) : Bool := t || decide (i ≠ 0)

/-- The original goroutine still has its final wait ahead, or it has
terminated with the counter at zero. -/
def Settled (s : State) : Prop :=
  ∃ m, s.threads[0]? = some m ∧ (m.guarded = true ∨ (m.isTerm = true ∧ s.wc = 0))

/-- Invariant of the reachable states. -/
def Good (s : State) : Prop :=
  s.threads ≠ [] ∧ wellShaped s.threads false = true ∧ s.wc = owedBy s.threads false

/-! ## The code built by the package is well shaped -/

theorem code_wcAdd (d : Int) (k h : Act) (task : Bool) :
    (Act.wcAdd d k h).code task
      = ((task && d == -1 && k.isTerm) || (d == 1 && k.launching task)) := by
  cases k <;> simp [Act.code, Act.launching]

theorem code_andThen_aux (q : Act) (hq : q.code false = true) (a : Act) :
    (a.code false = true → (a.andThen q).code false = true) ∧
    (a.launching false = true → (a.andThen q).launching false = true) := by
  induction a with
  | ret => simp [Act.andThen, hq, Act.launching]
  | panic v => simp [Act.andThen, Act.code, Act.launching]
  | spin => simp [Act.andThen, Act.code, Act.launching]
  | tick k ih => simpa [Act.andThen, Act.code, Act.launching] using ih.1
  | wcWait k ih => simpa [Act.andThen, Act.code, Act.launching] using ih.1
  | wcAdd d k h ihk _ =>
    refine ⟨?_, by simp [Act.launching]⟩
    simp only [Act.andThen, code_wcAdd]
    simp only [Bool.false_and, Bool.false_or, Bool.and_eq_true]
    exact fun hc => ⟨hc.1, ihk.2 hc.2⟩
  | goStmt b k _ ihk =>
    refine ⟨by simp [Act.code], ?_⟩
    simp only [Act.andThen, Act.launching, Bool.and_eq_true]
    exact fun hc => ⟨hc.1, ihk.1 hc.2⟩

theorem code_andThen (a q : Act) (ha : a.code false = true) (hq : q.code false = true) :
    (a.andThen q).code false = true :=
  (code_andThen_aux q hq a).1 ha

theorem code_withDefer_aux (dfr : Act) (t : Bool) (h1 : dfr.code t = true)
    (h2 : ∀ v, (dfr.andThen (.panic v)).code t = true) (a : Act) :
    (a.code false = true → (Act.withDefer dfr a).code t = true) ∧
    (a.launching false = true → (Act.withDefer dfr a).launching t = true) := by
  induction a with
  | ret => simp [Act.withDefer, h1, Act.launching]
  | panic v => simp [Act.withDefer, h2, Act.launching]
  | spin => simp [Act.withDefer, Act.code, Act.launching]
  | tick k ih => simpa [Act.withDefer, Act.code, Act.launching] using ih.1
  | wcWait k ih => simpa [Act.withDefer, Act.code, Act.launching] using ih.1
  | wcAdd d k h ihk _ =>
    refine ⟨?_, by simp [Act.launching]⟩
    simp only [Act.withDefer, code_wcAdd]
    simp only [Bool.false_and, Bool.false_or, Bool.and_eq_true, Bool.or_eq_true]
    exact fun hc => Or.inr ⟨hc.1, ihk.2 hc.2⟩
  | goStmt b k _ ihk =>
    refine ⟨by simp [Act.code], ?_⟩
    simp only [Act.withDefer, Act.launching, Bool.and_eq_true]
    exact fun hc => ⟨hc.1, ihk.1 hc.2⟩

theorem code_goClosure (a : Act) (ha : a.code false = true) :
    (goClosure a).code true = true :=
  (code_withDefer_aux wcDone true (by decide)
    (fun v => by simp [wcDone, wcAddCall, Act.andThen, Act.code, Act.isTerm]) a).1 ha

theorem code_RunMain (a : Act) (ha : a.code false = true) :
    (RunMain a).code false = true :=
  (code_withDefer_aux WaitAll false (by decide)
    (fun v => by simp [WaitAll, wcWaitCall, Act.andThen, Act.code]) a).1 ha

theorem code_Go (a : Act) (ha : a.code false = true) : (Go a).code false = true := by
  have := code_goClosure a ha
  simp [Go, wcAddCall, Act.andThen, Act.code, this]

theorem code_toAct (p : Prog) : p.toAct.code false = true := by
  induction p with
  | ret => rfl
  | panic v => rfl
  | spin => rfl
  | tick k ih => simpa [Prog.toAct, Act.code] using ih
  | go cb k ihc ihk => exact code_andThen _ _ (code_Go _ ihc) ihk
  | waitAll k ih => exact code_andThen _ _ (by decide) ih
  | runMain f k ihf ihk => exact code_andThen _ _ (code_RunMain _ ihf) ihk

/-! ## Bookkeeping over the pool of goroutines -/

theorem wellShaped_get (l : List Act) (t : Bool) (i : Nat) (a : Act)
    (hw : wellShaped l t = true) (h : l[i]? = some a) : a.okAs (roleAt t i) = true := by
  induction l generalizing t i with
  | nil => simp at h
  | cons b l ih =>
    simp only [wellShaped, Bool.and_eq_true] at hw
    cases i with
    | zero =>
      simp at h
      subst h
      simpa [roleAt] using hw.1
    | succ i =>
      simp at h
      simpa [roleAt] using ih true i hw.2 h

theorem wellShaped_set (l : List Act) (t : Bool) (i : Nat) (b : Act)
    (hw : wellShaped l t = true) (hb : b.okAs (roleAt t i) = true) :
    wellShaped (l.set i b) t = true := by
  induction l generalizing t i with
  | nil => simp [wellShaped]
  | cons c l ih =>
    simp only [wellShaped, Bool.and_eq_true] at hw
    cases i with
    | zero =>
      simp only [List.set_cons_zero, wellShaped, Bool.and_eq_true]
      exact ⟨by simpa [roleAt] using hb, hw.2⟩
    | succ i =>
      simp only [List.set_cons_succ, wellShaped, Bool.and_eq_true]
      exact ⟨hw.1, ih true i hw.2 (by simpa [roleAt] using hb)⟩

theorem wellShaped_append (l : List Act) (t : Bool) (b : Act) (hl : l ≠ [])
    (hw : wellShaped l t = true) (hb : b.okAs true = true) :
    wellShaped (l ++ [b]) t = true := by
  induction l generalizing t with
  | nil => exact absurd rfl hl
  | cons c l ih =>
    simp only [wellShaped, Bool.and_eq_true] at hw
    cases l with
    | nil => simp [wellShaped, hw.1, hb]
    | cons c2 l2 =>
      simp only [List.cons_append, wellShaped, Bool.and_eq_true]
      have := ih true (by simp) hw.2
      simp only [List.cons_append, wellShaped, Bool.and_eq_true] at this
      exact ⟨hw.1, this⟩

theorem owedBy_set (l : List Act) (t : Bool) (i : Nat) (a b : Act) (h : l[i]? = some a) :
    owedBy (l.set i b) t = owedBy l t - a.owes (roleAt t i) + b.owes (roleAt t i) := by
  induction l generalizing t i with
  | nil => simp at h
  | cons c l ih =>
    cases i with
    | zero =>
      simp at h
      subst h
      simp only [List.set_cons_zero, owedBy, roleAt]
      simp
      omega
    | succ i =>
      simp at h
      simp only [List.set_cons_succ, owedBy, ih true i h]
      simp [roleAt]
      omega

theorem owedBy_append (l : List Act) (t : Bool) (b : Act) (hl : l ≠ []) :
    owedBy (l ++ [b]) t = owedBy l t + b.owes true := by
  induction l generalizing t with
  | nil => exact absurd rfl hl
  | cons c l ih =>
    cases l with
    | nil => simp [owedBy]
    | cons c2 l2 =>
      have := ih true (by simp)
      simp only [List.cons_append, owedBy] at this ⊢
      omega

theorem owes_nonneg (a : Act) (t : Bool) : 0 ≤ a.owes t := by
  unfold Act.owes
  split <;> split <;> omega

theorem owedBy_nonneg (l : List Act) (t : Bool) : 0 ≤ owedBy l t := by
  induction l generalizing t with
  | nil => simp [owedBy]
  | cons c l ih =>
    have := ih true
    have := owes_nonneg c t
    simp only [owedBy]
    omega

theorem owes_le_owedBy (l : List Act) (t : Bool) (i : Nat) (a : Act) (h : l[i]? = some a) :
    a.owes (roleAt t i) ≤ owedBy l t := by
  induction l generalizing t i with
  | nil => simp at h
  | cons c l ih =>
    cases i with
    | zero =>
      simp at h
      subst h
      have := owedBy_nonneg l true
      simp only [owedBy, roleAt]
      simp
      omega
    | succ i =>
      simp at h
      have := ih true i h
      have := owes_nonneg c t
      simp only [owedBy]
      simp [roleAt] at *
      omega

theorem owes_of_code (a : Act) (t : Bool) (h : a.code t = true) :
    a.owes t = if t then 1 else 0 := by
  cases a <;> cases t <;> simp_all [Act.code, Act.owes, Act.isTerm, Act.isGo]

theorem owes_of_launching (a : Act) (t : Bool) (h : a.launching t = true) :
    a.owes t = (if t then 1 else 0) + 1 := by
  cases a <;> cases t <;> simp_all [Act.launching, Act.owes, Act.isTerm, Act.isGo]

theorem owes_of_isTerm (a : Act) (t : Bool) (h : a.isTerm = true) : a.owes t = 0 := by
  cases a <;> cases t <;> simp_all [Act.owes, Act.isTerm, Act.isGo]

theorem okAs_of_code (a : Act) (t : Bool) (h : a.code t = true) : a.okAs t = true := by
  simp [Act.okAs, h]

/-! ## The invariant holds in every reachable state -/

theorem good_init (a : Act) (h : a.code false = true) : Good (init a) := by
  refine ⟨by simp [init], ?_, ?_⟩
  · simp [init, wellShaped, Act.okAs, h]
  · simp [init, owedBy, owes_of_code a false h]

theorem good_update (s s' : State) (i : Nat) (a b : Act) (d : Int) (hg : Good s)
    (hget : s.threads[i]? = some a) (hb : b.okAs (roleAt false i) = true)
    (hd : b.owes (roleAt false i) = a.owes (roleAt false i) + d)
    (ht : s'.threads = s.threads.set i b) (hwc : s'.wc = s.wc + d) : Good s' := by
  obtain ⟨hne, hw, hc⟩ := hg
  refine ⟨?_, ?_, ?_⟩
  · rw [ht]
    intro h0
    exact hne (by simpa using h0)
  · rw [ht]
    exact wellShaped_set _ _ _ _ hw hb
  · rw [ht, hwc, owedBy_set _ _ _ a b hget, hc]
    omega

theorem good_spawn (s s' : State) (i : Nat) (a k b : Act) (hg : Good s)
    (hget : s.threads[i]? = some a) (hk : k.okAs (roleAt false i) = true)
    (hb : b.okAs true = true)
    (hd : k.owes (roleAt false i) + b.owes true = a.owes (roleAt false i))
    (ht : s'.threads = s.threads.set i k ++ [b]) (hwc : s'.wc = s.wc) : Good s' := by
  obtain ⟨hne, hw, hc⟩ := hg
  have hne' : s.threads.set i k ≠ [] := fun h0 => hne (by simpa using h0)
  refine ⟨?_, ?_, ?_⟩
  · rw [ht]
    simp
  · rw [ht]
    exact wellShaped_append _ _ _ hne' (wellShaped_set _ _ _ _ hw hk) hb
  · rw [ht, hwc, owedBy_append _ _ _ hne', owedBy_set _ _ _ a k hget, hc]
    omega

/-- In a good state the counter covers the contribution of every goroutine. -/
theorem good_owes_le (s : State) (i : Nat) (a : Act) (hg : Good s)
    (hget : s.threads[i]? = some a) : a.owes (roleAt false i) ≤ s.wc := by
  rw [hg.2.2]
  exact owes_le_owedBy _ _ _ _ hget

theorem good_wc_nonneg (s : State) (hg : Good s) : 0 ≤ s.wc := by
  rw [hg.2.2]
  exact owedBy_nonneg _ _

theorem good_step (s s' : State) (i : Nat) (e : Kind) (hg : Good s)
    (h : step s i = some (e, s')) : Good s' := by
  unfold step at h
  split at h
  · simp at h
  · split at h
    · simp at h
    · simp at h
    · simp only [Option.some.injEq, Prod.mk.injEq] at h
      obtain ⟨-, rfl⟩ := h
      exact hg
    · simp only [Option.some.injEq, Prod.mk.injEq] at h
      obtain ⟨-, rfl⟩ := h
      exact hg
    · rename_i k hget
      simp only [Option.some.injEq, Prod.mk.injEq] at h
      obtain ⟨-, rfl⟩ := h
      have hok := wellShaped_get _ _ _ _ hg.2.1 hget
      have hk : k.code (roleAt false i) = true := by
        simpa [Act.okAs, Act.code, Act.launching, Act.isTerm] using hok
      refine good_update s _ i _ k 0 hg hget (okAs_of_code _ _ hk) ?_ rfl (by simp)
      rw [owes_of_code _ _ hk, owes_of_code (Act.tick k) _ (by simpa [Act.code] using hk)]
      simp
    · rename_i d k hneg hget
      simp only [Option.some.injEq, Prod.mk.injEq] at h
      obtain ⟨-, rfl⟩ := h
      have hok := wellShaped_get _ _ _ _ hg.2.1 hget
      have hle := good_owes_le s i _ hg hget
      have h0 := good_wc_nonneg s hg
      have hcode : (Act.wcAdd d k hneg).code (roleAt false i) = true := by
        simpa [Act.okAs, Act.launching, Act.isTerm] using hok
      rw [owes_of_code _ _ hcode] at hle
      rw [code_wcAdd] at hcode
      simp only [Bool.or_eq_true, Bool.and_eq_true, beq_iff_eq] at hcode
      rcases hcode with ⟨⟨ht, hd⟩, hterm⟩ | ⟨hd, hl⟩
      · subst hd
        rw [ht] at hle
        simp only [if_true] at hle
        have hno : ¬ (s.wc + -1 < 0) := by omega
        refine good_update s _ i _ k (-1) hg hget ?_ ?_ (by simp [hno]) rfl
        · simp [Act.okAs, ht, hterm]
        · rw [owes_of_isTerm _ _ hterm, ht]
          simp [Act.owes, Act.isTerm, Act.isGo]
      · subst hd
        have hno : ¬ (s.wc + 1 < 0) := by omega
        refine good_update s _ i _ k 1 hg hget ?_ ?_ (by simp [hno]) rfl
        · simp [Act.okAs, hl]
        · rw [owes_of_launching _ _ hl]
          cases roleAt false i <;> simp [Act.owes, Act.isTerm, Act.isGo]
    · rename_i k hget
      split at h
      · simp only [Option.some.injEq, Prod.mk.injEq] at h
        obtain ⟨-, rfl⟩ := h
        have hok := wellShaped_get _ _ _ _ hg.2.1 hget
        have hk : k.code (roleAt false i) = true := by
          simpa [Act.okAs, Act.code, Act.launching, Act.isTerm] using hok
        refine good_update s _ i _ k 0 hg hget (okAs_of_code _ _ hk) ?_ rfl (by simp)
        rw [owes_of_code _ _ hk, owes_of_code (Act.wcWait k) _ (by simpa [Act.code] using hk)]
        simp
      · simp at h
    · rename_i b k hget
      simp only [Option.some.injEq, Prod.mk.injEq] at h
      obtain ⟨-, rfl⟩ := h
      have hok := wellShaped_get _ _ _ _ hg.2.1 hget
      have hl : (Act.goStmt b k).launching (roleAt false i) = true := by
        simpa [Act.okAs, Act.code, Act.isTerm] using hok
      have hbk : b.code true = true ∧ k.code (roleAt false i) = true := by
        simpa [Act.launching] using hl
      refine good_spawn s _ i _ k b hg hget (okAs_of_code _ _ hbk.2)
        (okAs_of_code _ _ hbk.1) ?_ rfl rfl
      rw [owes_of_launching _ _ hl, owes_of_code _ _ hbk.1, owes_of_code _ _ hbk.2]
      simp

theorem good_next (s : State) (i : Nat) (hg : Good s) : Good (next s i) := by
  unfold next
  split
  · rename_i e s' h
    exact good_step s s' i e hg h
  · exact hg

theorem good_exec (s : State) (sched : List Nat) (hg : Good s) : Good (exec s sched) := by
  induction sched generalizing s with
  | nil => exact hg
  | cons i sched ih => exact ih _ (good_next s i hg)

theorem good_reach (p : Prog) (sched : List Nat) : Good (exec (init p.toAct) sched) :=
  good_exec _ _ (good_init _ (code_toAct p))

/-! ## The counter along a trace -/

theorem step_wc (s s' : State) (i : Nat) (e : Kind) (h : step s i = some (e, s')) :
    s'.wc = s.wc + e.delta := by
  unfold step at h
  split at h
  · simp at h
  · split at h <;> (try split at h) <;> simp at h <;>
      obtain ⟨rfl, rfl⟩ := h <;> simp [Kind.delta]

theorem good_step_add (s s' : State) (i : Nat) (e : Kind) (hg : Good s)
    (h : step s i = some (e, s')) (d : Int) (he : e = .add d) : d = 1 ∨ d = -1 := by
  subst he
  unfold step at h
  split at h
  · simp at h
  · split at h <;> simp at h
    rename_i d' k hneg hget
    obtain ⟨rfl, -⟩ := h
    have hok := wellShaped_get _ _ _ _ hg.2.1 hget
    have hcode : (Act.wcAdd d' k hneg).code (roleAt false i) = true := by
      simpa [Act.okAs, Act.launching, Act.isTerm] using hok
    rw [code_wcAdd] at hcode
    simp only [Bool.or_eq_true, Bool.and_eq_true, beq_iff_eq] at hcode
    rcases hcode with ⟨⟨-, hd⟩, -⟩ | ⟨hd, -⟩
    · exact Or.inr hd
    · exact Or.inl hd

theorem exec_cons_some (s s' : State) (i : Nat) (e : Kind) (sched : List Nat)
    (h : step s i = some (e, s')) : exec s (i :: sched) = exec s' sched := by
  simp [exec, next, h]

theorem exec_cons_none (s : State) (i : Nat) (sched : List Nat) (h : step s i = none) :
    exec s (i :: sched) = exec s sched := by
  simp [exec, next, h]

theorem trace_cons_some (s s' : State) (i : Nat) (e : Kind) (sched : List Nat)
    (h : step s i = some (e, s')) : trace s (i :: sched) = ⟨i, e⟩ :: trace s' sched := by
  simp [trace, h]

theorem trace_cons_none (s : State) (i : Nat) (sched : List Nat) (h : step s i = none) :
    trace s (i :: sched) = trace s sched := by
  simp [trace, h]

/-- The counter after a run is the counter before plus the changes made by the
actions of the run. -/
theorem exec_wc (s : State) (sched : List Nat) :
    (exec s sched).wc = s.wc + netChange (trace s sched) := by
  induction sched generalizing s with
  | nil => simp [exec, trace, netChange]
  | cons i sched ih =>
    cases h : step s i with
    | none => rw [exec_cons_none _ _ _ h, trace_cons_none _ _ _ h, ih]
    | some r =>
      obtain ⟨e, s'⟩ := r
      rw [exec_cons_some _ _ _ _ _ h, trace_cons_some _ _ _ _ _ h, ih, step_wc _ _ _ _ h]
      simp [netChange]
      omega

/-- From a good state on, the only changes of the counter are increments by
one and decrements by one. -/
theorem good_netChange (s : State) (sched : List Nat) (hg : Good s) :
    netChange (trace s sched)
      = (increments (trace s sched) : Int) - (decrements (trace s sched) : Int) := by
  induction sched generalizing s with
  | nil => simp [trace, netChange, increments, decrements]
  | cons i sched ih =>
    cases h : step s i with
    | none => rw [trace_cons_none _ _ _ h, ih s hg]
    | some r =>
      obtain ⟨e, s'⟩ := r
      rw [trace_cons_some _ _ _ _ _ h]
      have ih' := ih s' (good_step _ _ _ _ hg h)
      have hadd := good_step_add _ _ _ _ hg h
      simp only [netChange, List.map_cons, List.sum_cons] at ih' ⊢
      rw [ih']
      cases e with
      | add d =>
        rcases hadd d rfl with rfl | rfl
        · simp [increments, decrements, Kind.delta, List.filter_cons]
          omega
        · simp [increments, decrements, Kind.delta, List.filter_cons]
          omega
      | _ => simp [increments, decrements, Kind.delta, List.filter_cons]

theorem owedBy_true_eq (l : List Act) :
    owedBy l true
      = ((l.filter (fun a => !a.isTerm)).length : Int) + ((l.filter Act.isGo).length : Int) := by
  induction l with
  | nil => simp [owedBy]
  | cons a l ih =>
    simp only [owedBy, ih, Act.owes, List.filter_cons]
    cases h1 : a.isTerm <;> cases h2 : a.isGo <;> simp
    all_goals omega

theorem good_wc_eq (s : State) (hg : Good s) :
    s.wc = (unfinishedTasks s : Int) + (launchingTasks s : Int) := by
  obtain ⟨hne, -, hc⟩ := hg
  rw [hc]
  unfold unfinishedTasks launchingTasks
  cases hl : s.threads with
  | nil => exact absurd hl hne
  | cons a l =>
    simp only [owedBy, owedBy_true_eq, Act.owes, List.tail_cons, List.filter_cons]
    cases h2 : a.isGo <;> simp
    all_goals omega

/-! ## A step seen from the goroutine that makes it -/

theorem set_same (l : List Act) (i : Nat) (a : Act) (h : l[i]? = some a) : l.set i a = l := by
  induction l generalizing i with
  | nil => simp
  | cons c l ih =>
    cases i with
    | zero =>
      simp at h
      simp [h]
    | succ i =>
      simp at h
      simp [ih i h]

theorem get_lt (l : List Act) (i : Nat) (a : Act) (h : l[i]? = some a) : i < l.length := by
  rcases Nat.lt_or_ge i l.length with h1 | h1
  · exact h1
  · rw [List.getElem?_eq_none h1] at h
    simp at h

theorem get_set_self (l : List Act) (i : Nat) (a : Act) (h : i < l.length) :
    (l.set i a)[i]? = some a := by
  rw [List.getElem?_set]
  simp [h]

theorem step_inv (s s' : State) (i : Nat) (e : Kind) (h : step s i = some (e, s')) :
    s.crashed = none ∧ ∃ a a' sp, s.threads[i]? = some a ∧ fire s.wc a = some (e, a', sp) ∧
      s'.wc = s.wc + e.delta ∧ s'.threads = s.threads.set i a' ++ sp.toList ∧
      s'.hits = s.hits + e.ticks ∧ s'.crashed = e.crash none := by
  unfold step at h
  split at h
  · simp at h
  · rename_i hc
    have hc' : s.crashed = none := by
      cases hcr : s.crashed with
      | none => rfl
      | some v => simp [hcr] at hc
    refine ⟨hc', ?_⟩
    split at h
    · simp at h
    · simp at h
    · rename_i v hget
      simp only [Option.some.injEq, Prod.mk.injEq] at h
      obtain ⟨rfl, rfl⟩ := h
      exact ⟨_, .panic v, none, hget, rfl, by simp [Kind.delta],
        by simp [set_same _ _ _ hget], by simp [Kind.ticks], by simp [Kind.crash]⟩
    · rename_i hget
      simp only [Option.some.injEq, Prod.mk.injEq] at h
      obtain ⟨rfl, rfl⟩ := h
      exact ⟨_, .spin, none, hget, rfl, by simp [Kind.delta],
        by simp [set_same _ _ _ hget], by simp [Kind.ticks], by simp [Kind.crash, hc']⟩
    · rename_i k hget
      simp only [Option.some.injEq, Prod.mk.injEq] at h
      obtain ⟨rfl, rfl⟩ := h
      exact ⟨_, k, none, hget, rfl, by simp [Kind.delta], by simp, by simp [Kind.ticks],
        by simp [Kind.crash, hc']⟩
    · rename_i d k hneg hget
      simp only [Option.some.injEq, Prod.mk.injEq] at h
      obtain ⟨rfl, rfl⟩ := h
      exact ⟨_, _, none, hget, rfl, by simp [Kind.delta], by simp, by simp [Kind.ticks],
        by simp [Kind.crash, hc']⟩
    · rename_i k hget
      split at h
      · rename_i hz
        simp only [Option.some.injEq, Prod.mk.injEq] at h
        obtain ⟨rfl, rfl⟩ := h
        exact ⟨_, k, none, hget, by simp [fire, hz], by simp [Kind.delta], by simp,
          by simp [Kind.ticks], by simp [Kind.crash, hc']⟩
      · simp at h
    · rename_i b k hget
      simp only [Option.some.injEq, Prod.mk.injEq] at h
      obtain ⟨rfl, rfl⟩ := h
      exact ⟨_, k, some b, hget, rfl, by simp [Kind.delta], by simp, by simp [Kind.ticks],
        by simp [Kind.crash, hc']⟩

/-- In a good state `wc.Add` never drives the counter below zero. -/
theorem good_fire (s : State) (i : Nat) (a : Act) (hg : Good s)
    (hget : s.threads[i]? = some a) (d : Int) (k h : Act) (ha : a = .wcAdd d k h) :
    ¬ (s.wc + d < 0) := by
  subst ha
  have hok := wellShaped_get _ _ _ _ hg.2.1 hget
  have hle := good_owes_le s i _ hg hget
  have h0 := good_wc_nonneg s hg
  have hcode : (Act.wcAdd d k h).code (roleAt false i) = true := by
    simpa [Act.okAs, Act.launching, Act.isTerm] using hok
  rw [owes_of_code _ _ hcode] at hle
  rw [code_wcAdd] at hcode
  simp only [Bool.or_eq_true, Bool.and_eq_true, beq_iff_eq] at hcode
  rcases hcode with ⟨⟨ht, hd⟩, -⟩ | ⟨hd, -⟩
  · subst hd
    rw [ht] at hle
    simp only [if_true] at hle
    omega
  · subst hd
    omega

/-! ## Code that ends with a wait -/

theorem guarded_fire (wc : Int) (a a' : Act) (e : Kind) (sp : Option Act)
    (hgu : a.guarded = true) (hf : fire wc a = some (e, a', sp))
    (hneg : ∀ d k h, a = .wcAdd d k h → ¬ (wc + d < 0)) :
    a'.guarded = true ∨ (a'.isTerm = true ∧ wc = 0 ∧ e = .wait) := by
  cases a with
  | ret => simp [Act.guarded] at hgu
  | panic v => simp [Act.guarded] at hgu
  | spin =>
    simp [fire] at hf
    simp [← hf.2.1, Act.guarded]
  | tick k =>
    simp [fire] at hf
    simp only [Act.guarded] at hgu
    simp [← hf.2.1, hgu]
  | wcAdd d k h =>
    simp [fire, hneg d k h rfl] at hf
    simp only [Act.guarded] at hgu
    simp [← hf.2.1, hgu]
  | wcWait k =>
    by_cases hz : wc = 0
    · simp [fire, hz] at hf
      simp only [Act.guarded, Bool.or_eq_true] at hgu
      rcases hgu with ht | hg'
      · exact Or.inr ⟨by rw [← hf.2.1]; exact ht, hz, hf.1.symm⟩
      · exact Or.inl (by rw [← hf.2.1]; exact hg')
    · simp [fire, hz] at hf
  | goStmt b k =>
    simp [fire] at hf
    simp only [Act.guarded] at hgu
    simp [← hf.2.1, hgu]

theorem term_fire (wc : Int) (a a' : Act) (e : Kind) (sp : Option Act)
    (ht : a.isTerm = true) (hf : fire wc a = some (e, a', sp)) :
    a' = a ∧ sp = none ∧ e.delta = 0 ∧ e.ticks = 0 := by
  cases a with
  | ret => simp [fire] at hf
  | panic v =>
    simp [fire] at hf
    simp [← hf.1, ← hf.2.1, ← hf.2.2, Kind.delta, Kind.ticks]
  | _ => simp [Act.isTerm] at ht

theorem get_update (l : List Act) (i j : Nat) (a' : Act) (sp : List Act) (hj : j < l.length) :
    (l.set i a' ++ sp)[j]? = if i = j then some a' else l[j]? := by
  rw [List.getElem?_append_left (by simpa using hj), List.getElem?_set]
  by_cases hij : i = j
  · subst hij
    simp [hj]
  · simp [hij]

/-- With the counter at zero, every goroutine started by `Go` has terminated. -/
theorem good_zero_term (s : State) (hg : Good s) (hz : s.wc = 0) (i : Nat) (a : Act)
    (hi : 1 ≤ i) (hget : s.threads[i]? = some a) : a.isTerm = true := by
  have hle := good_owes_le s i a hg hget
  have hr : roleAt false i = true := by
    simp [roleAt]
    omega
  rw [hr, hz] at hle
  cases ht : a.isTerm with
  | true => rfl
  | false =>
    have := owes_nonneg a false
    simp only [Act.owes, ht] at hle this
    simp at hle this
    split at hle <;> omega

theorem settled_step (s s' : State) (i : Nat) (e : Kind) (hg : Good s) (hs : Settled s)
    (h : step s i = some (e, s')) : Settled s' := by
  obtain ⟨m, hm, hcase⟩ := hs
  obtain ⟨-, a, a', sp, hget, hf, hwc, hth, -, -⟩ := step_inv s s' i e h
  have hlen : 0 < s.threads.length := by
    rcases Nat.eq_zero_or_pos s.threads.length with h0 | h0
    · simp [List.length_eq_zero.mp h0] at hm
    · exact h0
  have h0' : s'.threads[0]? = if i = 0 then some a' else s.threads[0]? := by
    rw [hth]
    exact get_update _ _ _ _ _ hlen
  rcases hcase with hgu | ⟨ht, hz⟩
  · by_cases hi : i = 0
    · subst hi
      rw [hm] at hget
      obtain rfl := Option.some.inj hget
      rcases guarded_fire s.wc m a' e sp hgu hf
          (fun d k hh hm' => good_fire s 0 m hg hm d k hh hm') with h1 | ⟨h1, h2, h3⟩
      · exact ⟨a', by simp [h0'], Or.inl h1⟩
      · refine ⟨a', by simp [h0'], Or.inr ⟨h1, ?_⟩⟩
        rw [hwc, h2, h3]
        simp [Kind.delta]
    · exact ⟨m, by simp [h0', hi, hm], Or.inl hgu⟩
  · have hat : a.isTerm = true := by
      by_cases hi : i = 0
      · subst hi
        rw [hm] at hget
        obtain rfl := Option.some.inj hget
        exact ht
      · exact good_zero_term s hg hz i a (by omega) hget
    obtain ⟨ha', -, hd, -⟩ := term_fire s.wc a a' e sp hat hf
    refine ⟨m, ?_, Or.inr ⟨ht, by rw [hwc, hd, hz]; simp⟩⟩
    rw [h0']
    by_cases hi : i = 0
    · subst hi
      rw [hm] at hget
      obtain rfl := Option.some.inj hget
      simp [ha']
    · simp [hi, hm]

theorem settled_exec (s : State) (sched : List Nat) (hg : Good s) (hs : Settled s) :
    Settled (exec s sched) := by
  induction sched generalizing s with
  | nil => exact hs
  | cons i sched ih =>
    cases h : step s i with
    | none =>
      rw [exec_cons_none _ _ _ h]
      exact ih s hg hs
    | some r =>
      obtain ⟨e, s'⟩ := r
      rw [exec_cons_some _ _ _ _ _ h]
      exact ih s' (good_step _ _ _ _ hg h) (settled_step _ _ _ _ hg hs h)

/-- When the original goroutine runs code that ends with a wait and has
terminated, the counter is zero and every goroutine of the pool has
terminated. -/
theorem quiescent_of_done (a0 : Act) (hc : a0.code false = true) (hgu : a0.guarded = true)
    (sched : List Nat) (m : Act) (hm : (exec (init a0) sched).threads[0]? = some m)
    (ht : m.isTerm = true) :
    (exec (init a0) sched).wc = 0 ∧
      ∀ (i : Nat) (a : Act), (exec (init a0) sched).threads[i]? = some a →
        a.isTerm = true := by
  have hg := good_exec _ sched (good_init a0 hc)
  have hs := settled_exec _ sched (good_init a0 hc) ⟨a0, by simp [init], Or.inl hgu⟩
  obtain ⟨m', hm', hcase⟩ := hs
  rw [hm] at hm'
  obtain rfl := Option.some.inj hm'
  have hz : (exec (init a0) sched).wc = 0 := by
    rcases hcase with h1 | h1
    · cases m <;> simp [Act.isTerm, Act.guarded] at ht h1
    · exact h1.2
  refine ⟨hz, fun i a hget => ?_⟩
  by_cases hi : i = 0
  · subst hi
    rw [hm] at hget
    obtain rfl := Option.some.inj hget
    exact ht
  · exact good_zero_term _ hg hz i a (by omega) hget

/-! ## Conservation of work -/

theorem ahead_fire (ct cs : Nat) (wc : Int) (a a' : Act) (e : Kind) (sp : Option Act)
    (hf : fire wc a = some (e, a', sp)) (hneg : ∀ d k h, a = .wcAdd d k h → ¬ (wc + d < 0)) :
    a.ahead ct cs
      = ct * e.ticks + a'.ahead ct cs + cs * sp.toList.length
        + (sp.toList.map (Act.ahead ct cs)).sum := by
  cases a with
  | ret => simp [fire] at hf
  | panic v =>
    simp [fire] at hf
    simp [← hf.1, ← hf.2.1, ← hf.2.2, Act.ahead, Kind.ticks]
  | spin =>
    simp [fire] at hf
    simp [← hf.1, ← hf.2.1, ← hf.2.2, Act.ahead, Kind.ticks]
  | tick k =>
    simp [fire] at hf
    simp [← hf.1, ← hf.2.1, ← hf.2.2, Act.ahead, Kind.ticks]
  | wcAdd d k h =>
    simp [fire, hneg d k h rfl] at hf
    simp [← hf.1, ← hf.2.1, ← hf.2.2, Act.ahead, Kind.ticks]
  | wcWait k =>
    by_cases hz : wc = 0
    · simp [fire, hz] at hf
      simp [← hf.1, ← hf.2.1, ← hf.2.2, Act.ahead, Kind.ticks]
    · simp [fire, hz] at hf
  | goStmt b k =>
    simp [fire] at hf
    simp [← hf.1, ← hf.2.1, ← hf.2.2, Act.ahead, Kind.ticks]
    omega

theorem sum_set (f : Act → Nat) (l : List Act) (i : Nat) (a b : Act) (h : l[i]? = some a) :
    ((l.set i b).map f).sum + f a = (l.map f).sum + f b := by
  induction l generalizing i with
  | nil => simp at h
  | cons c l ih =>
    cases i with
    | zero =>
      simp at h
      subst h
      simp
      omega
    | succ i =>
      simp at h
      have := ih i h
      simp only [List.set_cons_succ, List.map_cons, List.sum_cons]
      omega

theorem total_step (ct cs : Nat) (s s' : State) (i : Nat) (e : Kind) (hg : Good s)
    (h : step s i = some (e, s')) : total ct cs s' = total ct cs s := by
  obtain ⟨-, a, a', sp, hget, hf, -, hth, hh, -⟩ := step_inv s s' i e h
  have hloc := ahead_fire ct cs s.wc a a' e sp hf
    (fun d k hh ha => good_fire s i a hg hget d k hh ha)
  have hsum := sum_set (Act.ahead ct cs) s.threads i a a' hget
  unfold total
  rw [hth, hh]
  simp only [List.map_append, List.sum_append, List.length_append, List.length_set]
  rw [Nat.mul_add, Nat.mul_add]
  omega

theorem total_exec (ct cs : Nat) (s : State) (sched : List Nat) (hg : Good s) :
    total ct cs (exec s sched) = total ct cs s := by
  induction sched generalizing s with
  | nil => rfl
  | cons i sched ih =>
    cases h : step s i with
    | none =>
      rw [exec_cons_none _ _ _ h]
      exact ih s hg
    | some r =>
      obtain ⟨e, s'⟩ := r
      rw [exec_cons_some _ _ _ _ _ h, ih s' (good_step _ _ _ _ hg h)]
      exact total_step ct cs s s' i e hg h

theorem ahead_of_isTerm (ct cs : Nat) (a : Act) (h : a.isTerm = true) : a.ahead ct cs = 0 := by
  cases a <;> simp_all [Act.isTerm, Act.ahead]

theorem sum_ahead_of_term (ct cs : Nat) (l : List Act)
    (h : ∀ (i : Nat) (a : Act), l[i]? = some a → a.isTerm = true) :
    (l.map (Act.ahead ct cs)).sum = 0 := by
  induction l with
  | nil => rfl
  | cons c l ih =>
    have hc := h 0 c (by simp)
    have := ih (fun i a hi => h (i + 1) a (by simpa using hi))
    simp [ahead_of_isTerm ct cs c hc, this]

theorem ahead_goClosure (ct cs : Nat) (a : Act) :
    (goClosure a).ahead ct cs = a.ahead ct cs := by
  unfold goClosure
  induction a with
  | ret => simp [Act.withDefer, wcDone, wcAddCall, Act.ahead]
  | panic v => simp [Act.withDefer, wcDone, wcAddCall, Act.andThen, Act.ahead]
  | spin => simp [Act.withDefer, Act.ahead]
  | tick k ih => simp [Act.withDefer, Act.ahead, ih]
  | wcWait k ih => simp [Act.withDefer, Act.ahead, ih]
  | wcAdd d k h ihk _ => simp [Act.withDefer, Act.ahead, ihk]
  | goStmt b k _ ihk => simp [Act.withDefer, Act.ahead, ihk]

theorem toAct_go (cb k : Prog) :
    (Prog.go cb k).toAct
      = .wcAdd 1 (.goStmt (goClosure cb.toAct) k.toAct) (.panic negativeCounter) := by
  simp [Prog.toAct, Go, wcAddCall, Act.andThen]

theorem toAct_waitAll (k : Prog) : (Prog.waitAll k).toAct = .wcWait k.toAct := by
  simp [Prog.toAct, WaitAll, wcWaitCall, Act.andThen]

/-! ## Simulation between agreeing pools -/

theorem step_eq (s : State) (i : Nat) :
    step s i = if s.crashed.isSome then none else
      match s.threads[i]? with
      | none => none
      | some a => (fire s.wc a).map (fun r =>
          (r.1, ({ wc := s.wc + r.1.delta, threads := s.threads.set i r.2.1 ++ r.2.2.toList,
                   hits := s.hits + r.1.ticks, crashed := r.1.crash s.crashed } : State))) := by
  unfold step
  split
  · rfl
  · cases hget : s.threads[i]? with
    | none => rfl
    | some a =>
      obtain ⟨wc, th, hits, cr⟩ := s
      simp only at hget
      cases a with
      | wcWait k =>
        by_cases hz : wc = 0 <;> simp [fire, hz, Kind.delta, Kind.ticks, Kind.crash]
      | _ => simp [fire, Kind.delta, Kind.ticks, Kind.crash, set_same _ _ _ hget]

theorem agree_refl (a : Act) : a.agree a = true := by
  induction a <;> simp [Act.agree, *]

theorem agreeAll_refl (l : List Act) : agreeAll l l = true := by
  induction l <;> simp [agreeAll, agree_refl, *]

theorem agree_RunMain_inlineMain (a : Act) (h : a.noPanic = true) :
    (RunMain a).agree (inlineMain a) = true := by
  unfold RunMain inlineMain
  induction a with
  | ret => simp [Act.withDefer, Act.andThen, agree_refl]
  | panic v => simp [Act.noPanic] at h
  | spin => simp [Act.withDefer, Act.andThen, Act.agree]
  | tick k ih => simpa [Act.withDefer, Act.andThen, Act.agree] using ih (by simpa [Act.noPanic] using h)
  | wcWait k ih =>
    simpa [Act.withDefer, Act.andThen, Act.agree] using ih (by simpa [Act.noPanic] using h)
  | wcAdd d k hh ih _ =>
    simpa [Act.withDefer, Act.andThen, Act.agree] using ih (by simpa [Act.noPanic] using h)
  | goStmt b k _ ih =>
    simpa [Act.withDefer, Act.andThen, Act.agree] using ih (by simpa [Act.noPanic] using h)

theorem fire_agree (wc : Int) (a b : Act) (hab : a.agree b = true)
    (hneg : ∀ d k h, a = .wcAdd d k h → ¬ (wc + d < 0)) :
    (fire wc a = none ∧ fire wc b = none) ∨
      ∃ e a' b' sp, fire wc a = some (e, a', sp) ∧ fire wc b = some (e, b', sp) ∧
        a'.agree b' = true := by
  cases a <;> cases b <;> simp [Act.agree] at hab
  · exact Or.inl ⟨rfl, rfl⟩
  · subst hab
    exact Or.inr ⟨_, _, _, _, rfl, rfl, by simp [Act.agree]⟩
  · exact Or.inr ⟨_, _, _, _, rfl, rfl, by simp [Act.agree]⟩
  · exact Or.inr ⟨_, _, _, _, rfl, rfl, hab⟩
  · rename_i d k h d' k' h'
    obtain ⟨rfl, hk⟩ := hab
    have := hneg d k h rfl
    exact Or.inr ⟨.add d, k, k', none, by simp [fire, this], by simp [fire, this], hk⟩
  · by_cases hz : wc = 0
    · exact Or.inr ⟨.wait, _, _, none, by simp [fire, hz], by simp [fire, hz], hab⟩
    · exact Or.inl ⟨by simp [fire, hz], by simp [fire, hz]⟩
  · obtain ⟨rfl, hk⟩ := hab
    exact Or.inr ⟨_, _, _, _, rfl, rfl, hk⟩

theorem agreeAll_get (l m : List Act) (i : Nat) (h : agreeAll l m = true) :
    (l[i]? = none ∧ m[i]? = none) ∨ ∃ a b, l[i]? = some a ∧ m[i]? = some b ∧ a.agree b = true := by
  induction l generalizing m i with
  | nil =>
    cases m with
    | nil => simp
    | cons b m => simp [agreeAll] at h
  | cons a l ih =>
    cases m with
    | nil => simp [agreeAll] at h
    | cons b m =>
      simp only [agreeAll, Bool.and_eq_true] at h
      cases i with
      | zero => exact Or.inr ⟨a, b, by simp, by simp, h.1⟩
      | succ i => simpa using ih m i h.2

theorem agreeAll_set (l m : List Act) (i : Nat) (a b : Act) (h : agreeAll l m = true)
    (hab : a.agree b = true) : agreeAll (l.set i a) (m.set i b) = true := by
  induction l generalizing m i with
  | nil =>
    cases m with
    | nil => simp [agreeAll]
    | cons b m => simp [agreeAll] at h
  | cons c l ih =>
    cases m with
    | nil => simp [agreeAll] at h
    | cons c' m =>
      simp only [agreeAll, Bool.and_eq_true] at h
      cases i with
      | zero => simp [agreeAll, hab, h.2]
      | succ i => simp [agreeAll, h.1, ih m i h.2]

theorem agreeAll_append (l m sp : List Act) (h : agreeAll l m = true) :
    agreeAll (l ++ sp) (m ++ sp) = true := by
  induction l generalizing m with
  | nil =>
    cases m with
    | nil => simpa using agreeAll_refl sp
    | cons b m => simp [agreeAll] at h
  | cons c l ih =>
    cases m with
    | nil => simp [agreeAll] at h
    | cons c' m =>
      simp only [agreeAll, Bool.and_eq_true] at h
      simp [agreeAll, h.1, ih m h.2]

theorem related_step (s t : State) (i : Nat) (hg : Good s) (hr : Related s t) :
    (step s i = none ∧ step t i = none) ∨
      ∃ e s' t', step s i = some (e, s') ∧ step t i = some (e, t') ∧ Related s' t' := by
  obtain ⟨hwc, hh, hcr, hth⟩ := hr
  rw [step_eq s i, step_eq t i, ← hcr, ← hwc, ← hh]
  by_cases hc : s.crashed.isSome = true
  · simp [hc]
  · simp only [hc]
    rcases agreeAll_get _ _ i hth with ⟨h1, h2⟩ | ⟨a, b, h1, h2, hab⟩
    · simp [h1, h2]
    · rcases fire_agree s.wc a b hab (fun d k h ha => good_fire s i a hg h1 d k h ha)
        with ⟨f1, f2⟩ | ⟨e, a', b', sp, f1, f2, hab'⟩
      · simp [h1, h2, f1, f2]
      · refine Or.inr ⟨e, _, _, by simp [h1, f1]; rfl, by simp [h2, f2]; rfl, ?_⟩
        exact ⟨rfl, rfl, rfl, agreeAll_append _ _ _ (agreeAll_set _ _ _ _ _ hth hab')⟩

theorem related_exec (s t : State) (sched : List Nat) (hg : Good s) (hr : Related s t) :
    trace s sched = trace t sched ∧ Related (exec s sched) (exec t sched) := by
  induction sched generalizing s t with
  | nil => exact ⟨rfl, hr⟩
  | cons i sched ih =>
    rcases related_step s t i hg hr with ⟨h1, h2⟩ | ⟨e, s', t', h1, h2, hr'⟩
    · rw [trace_cons_none _ _ _ h1, trace_cons_none _ _ _ h2, exec_cons_none _ _ _ h1,
        exec_cons_none _ _ _ h2]
      exact ih s t hg hr
    · rw [trace_cons_some _ _ _ _ _ h1, trace_cons_some _ _ _ _ _ h2,
        exec_cons_some _ _ _ _ _ h1, exec_cons_some _ _ _ _ _ h2]
      obtain ⟨ht, hrel⟩ := ih s' t' (good_step _ _ _ _ hg h1) hr'
      exact ⟨by rw [ht], hrel⟩

theorem outcome_of_agree (a b : Act) (h : a.agree b = true) : a.outcome = b.outcome := by
  cases a <;> cases b <;> simp_all [Act.agree, Act.outcome]

theorem outcomes_of_agreeAll (l m : List Act) (h : agreeAll l m = true) :
    l.map Act.outcome = m.map Act.outcome := by
  induction l generalizing m with
  | nil =>
    cases m with
    | nil => rfl
    | cons b m => simp [agreeAll] at h
  | cons a l ih =>
    cases m with
    | nil => simp [agreeAll] at h
    | cons b m =>
      simp only [agreeAll, Bool.and_eq_true] at h
      simp [outcome_of_agree a b h.1, ih m h.2]

/-! ## The code of the original goroutine -/

theorem main_within (S : Act → Prop)
    (hS : ∀ (wc : Int) (a a' : Act) (e : Kind) (sp : Option Act), S a →
      fire wc a = some (e, a', sp) → (∀ d k h, a = .wcAdd d k h → ¬ (wc + d < 0)) → S a')
    (s : State) (hg : Good s) (m : Act) (hm : s.threads[0]? = some m) (hSm : S m)
    (sched : List Nat) : ∃ m', (exec s sched).threads[0]? = some m' ∧ S m' := by
  induction sched generalizing s m with
  | nil => exact ⟨m, hm, hSm⟩
  | cons i sched ih =>
    cases h : step s i with
    | none =>
      rw [exec_cons_none _ _ _ h]
      exact ih s hg m hm hSm
    | some r =>
      obtain ⟨e, s'⟩ := r
      rw [exec_cons_some _ _ _ _ _ h]
      obtain ⟨-, a, a', sp, hget, hf, -, hth, -, -⟩ := step_inv s s' i e h
      have hlen := get_lt _ _ _ hm
      have h0' : s'.threads[0]? = if i = 0 then some a' else s.threads[0]? := by
        rw [hth]
        exact get_update _ _ _ _ _ hlen
      by_cases hi : i = 0
      · subst hi
        rw [hm] at hget
        obtain rfl := Option.some.inj hget
        exact ih s' (good_step _ _ _ _ hg h) a' (by simp [h0'])
          (hS s.wc m a' e sp hSm hf (fun d k hh ha => good_fire s 0 m hg hm d k hh ha))
      · exact ih s' (good_step _ _ _ _ hg h) m (by simp [h0', hi, hm]) hSm

theorem ahead_launchAll (ct cs : Nat) (cbs : List Prog) (k : Prog) :
    (launchAll cbs k).toAct.ahead ct cs
      = (cbs.map (fun cb => cs + cb.toAct.ahead ct cs)).sum + k.toAct.ahead ct cs := by
  induction cbs with
  | nil => simp [launchAll]
  | cons cb cbs ih =>
    rw [launchAll, toAct_go]
    simp only [Act.ahead, ahead_goClosure, ih, List.map_cons, List.sum_cons]
    omega

theorem guarded_launchAll (cbs : List Prog) (k : Prog) (h : k.toAct.guarded = true) :
    (launchAll cbs k).toAct.guarded = true := by
  induction cbs with
  | nil => simpa [launchAll] using h
  | cons cb cbs ih =>
    rw [launchAll, toAct_go]
    simpa [Act.guarded] using ih

theorem ahead_chainLink (n : Nat) : (chainLink n).toAct.ahead 0 1 = n := by
  induction n with
  | zero => rfl
  | succ n ih =>
    rw [chainLink, toAct_go]
    simp only [Act.ahead, ahead_goClosure, ih, Prog.toAct]
    omega

theorem ahead_chainMain (D : Nat) : (chainMain D).toAct.ahead 0 1 = D := by
  cases D with
  | zero => rfl
  | succ D =>
    rw [chainMain, toAct_go, toAct_waitAll]
    simp only [Act.ahead, ahead_goClosure, ahead_chainLink, Prog.toAct]
    omega

theorem guarded_chainMain (D : Nat) : (chainMain D).toAct.guarded = true := by
  cases D with
  | zero => rfl
  | succ D =>
    rw [chainMain, toAct_go, toAct_waitAll]
    simp [Act.guarded, Act.isTerm, Prog.toAct]

/-- With the invariant, a counter at zero and an original goroutine that holds
no more work, the pool holds no more work at all. -/
theorem total_at_rest (ct cs : Nat) (s : State) (hg : Good s) (hz : s.wc = 0) (m : Act)
    (hm : s.threads[0]? = some m) (h0 : m.ahead ct cs = 0) :
    total ct cs s = ct * s.hits + cs * s.threads.length := by
  unfold total
  have : (s.threads.map (Act.ahead ct cs)).sum = 0 := by
    cases hl : s.threads with
    | nil => rfl
    | cons c l =>
      rw [hl] at hm
      simp at hm
      subst hm
      have hrest : (l.map (Act.ahead ct cs)).sum = 0 :=
        sum_ahead_of_term ct cs l (fun i a hi =>
          good_zero_term s hg hz (i + 1) a (by omega) (by rw [hl]; simpa using hi))
      simp [h0, hrest]
  omega

/-! ## The deferred `wc.Done()` of a task -/

theorem code_true_not_term (a : Act) (h : a.code true = true) : a.isTerm = false := by
  cases a <;> simp_all [Act.code, Act.isTerm]

theorem launching_not_term (a : Act) (t : Bool) (h : a.launching t = true) :
    a.isTerm = false := by
  cases a <;> simp_all [Act.launching, Act.isTerm]

theorem task_fire (wc : Int) (a a' : Act) (e : Kind) (sp : Option Act)
    (hok : a.okAs true = true) (hnt : a.isTerm = false) (hf : fire wc a = some (e, a', sp))
    (hneg : ∀ d k h, a = .wcAdd d k h → ¬ (wc + d < 0)) :
    ((e = .add (-1) ∧ a'.isTerm = true) ∨ (e ≠ .add (-1) ∧ a'.isTerm = false)) ∧
      e.isFatal = false ∧ ∀ b, sp = some b → b.isTerm = false := by
  cases a with
  | ret => simp [Act.isTerm] at hnt
  | panic v => simp [Act.isTerm] at hnt
  | spin =>
    simp [fire] at hf
    simp [← hf.1, ← hf.2.1, ← hf.2.2, Act.isTerm, Kind.isFatal]
  | tick k =>
    simp [fire] at hf
    have hk : k.code true = true := by
      simpa [Act.okAs, Act.code, Act.launching, Act.isTerm] using hok
    simp [← hf.1, ← hf.2.1, ← hf.2.2, code_true_not_term k hk, Kind.isFatal]
  | wcAdd d k h =>
    simp [fire, hneg d k h rfl] at hf
    have hcode : (Act.wcAdd d k h).code true = true := by
      simpa [Act.okAs, Act.launching, Act.isTerm] using hok
    rw [code_wcAdd] at hcode
    simp only [Bool.or_eq_true, Bool.and_eq_true, beq_iff_eq, Bool.true_and] at hcode
    rcases hcode with ⟨hd, hterm⟩ | ⟨hd, hl⟩
    · subst hd
      simp [← hf.1, ← hf.2.1, ← hf.2.2, hterm, Kind.isFatal]
    · subst hd
      simp [← hf.1, ← hf.2.1, ← hf.2.2, launching_not_term k true hl, Kind.isFatal]
  | wcWait k =>
    have hk : k.code true = true := by
      simpa [Act.okAs, Act.code, Act.launching, Act.isTerm] using hok
    by_cases hz : wc = 0
    · simp [fire, hz] at hf
      simp [← hf.1, ← hf.2.1, ← hf.2.2, code_true_not_term k hk, Kind.isFatal]
    · simp [fire, hz] at hf
  | goStmt b k =>
    simp [fire] at hf
    have hbk : b.code true = true ∧ k.code true = true := by
      simpa [Act.okAs, Act.code, Act.launching, Act.isTerm] using hok
    simp [← hf.1, ← hf.2.1, ← hf.2.2, code_true_not_term k hbk.2, code_true_not_term b hbk.1,
      Kind.isFatal]

theorem spawn_fire (wc : Int) (a a' : Act) (e : Kind) (sp : Option Act) (t : Bool)
    (hok : a.okAs t = true) (hf : fire wc a = some (e, a', sp)) (b : Act) (hsp : sp = some b) :
    b.isTerm = false := by
  subst hsp
  cases a with
  | goStmt c k =>
    simp [fire] at hf
    have hck : c.code true = true ∧ k.code t = true := by
      simpa [Act.okAs, Act.code, Act.launching, Act.isTerm] using hok
    rw [← hf.2.2]
    exact code_true_not_term c hck.1
  | wcWait k =>
    by_cases hz : wc = 0 <;> simp [fire, hz] at hf
  | _ => simp [fire] at hf

theorem term_fire_fatal (wc : Int) (a a' : Act) (e : Kind) (sp : Option Act)
    (ht : a.isTerm = true) (hf : fire wc a = some (e, a', sp)) :
    e.isFatal = true ∧ e ≠ .add (-1) := by
  cases a with
  | ret => simp [fire] at hf
  | panic v =>
    simp [fire] at hf
    simp [← hf.1, Kind.isFatal]
  | _ => simp [Act.isTerm] at ht

theorem eventsOf_append (i : Nat) (tr : List Event) (j : Nat) (e : Kind) :
    eventsOf i (tr ++ [⟨j, e⟩]) = if j = i then eventsOf i tr ++ [e] else eventsOf i tr := by
  unfold eventsOf
  by_cases h : j = i <;> simp [List.filter_append, List.filter_cons, h]

theorem eventsOf_eq_nil (i : Nat) (tr : List Event) (h : ∀ e ∈ tr, e.tid < i) :
    eventsOf i tr = [] := by
  unfold eventsOf
  simp only [List.map_eq_nil_iff, List.filter_eq_nil_iff]
  intro e he
  have := h e he
  simp
  omega

theorem get_update_ge (l : List Act) (i j : Nat) (a' b : Act) (sp : Option Act)
    (hj : l.length ≤ j) (h : (l.set i a' ++ sp.toList)[j]? = some b) :
    sp = some b ∧ j = l.length := by
  rw [List.getElem?_append_right (by simpa using hj)] at h
  cases sp with
  | none => simp at h
  | some c =>
    simp only [Option.toList, List.length_set] at h
    have hlt := get_lt _ _ _ h
    simp at hlt
    have h0 : j - l.length = 0 := by omega
    rw [h0] at h
    simp at h
    exact ⟨by rw [h], by omega⟩

theorem doneLast_step (s s' : State) (tr : List Event) (j : Nat) (e : Kind) (hg : Good s)
    (hJ : DoneLast s tr) (h : step s j = some (e, s')) : DoneLast s' (tr ++ [⟨j, e⟩]) := by
  obtain ⟨hb, hJ⟩ := hJ
  obtain ⟨-, a, a', sp, hget, hf, -, hth, -, -⟩ := step_inv s s' j e h
  have hjlt := get_lt _ _ _ hget
  have hneg : ∀ d k h, a = .wcAdd d k h → ¬ (s.wc + d < 0) :=
    fun d k hh ha => good_fire s j a hg hget d k hh ha
  have hlen : s.threads.length ≤ s'.threads.length := by
    rw [hth]
    simp
  refine ⟨?_, ?_⟩
  · intro ev hev
    rcases List.mem_append.mp hev with h1 | h1
    · exact lt_of_lt_of_le (hb ev h1) hlen
    · simp at h1
      subst h1
      exact lt_of_lt_of_le hjlt hlen
  · intro i b hi hgi
    rw [hth] at hgi
    simp only [actionsOf, doneCount, eventsOf_append]
    by_cases hji : j = i
    · subst hji
      rw [get_update _ _ _ _ _ hjlt] at hgi
      simp only [if_true, Option.some.injEq] at hgi
      subst hgi
      have hrole : roleAt false j = true := by
        simp [roleAt]
        omega
      have hok : a.okAs true = true := by
        have := wellShaped_get _ _ _ _ hg.2.1 hget
        rwa [hrole] at this
      obtain ⟨hT, hN⟩ := hJ j a hi hget
      simp only [actionsOf, doneCount] at hT hN
      cases hterm : a.isTerm with
      | true =>
        obtain ⟨hfat, hne⟩ := term_fire_fatal s.wc a a' e sp hterm hf
        obtain ⟨ha', -, -, -⟩ := term_fire s.wc a a' e sp hterm hf
        subst ha'
        simp only [if_true, List.filter_append, List.filter_cons, List.filter_nil, hfat,
          Bool.not_true, decide_eq_true_eq, hne, if_false, List.append_nil, hterm]
        simpa using hT hterm
      | false =>
        obtain ⟨hcase, hnf, -⟩ := task_fire s.wc a a' e sp hok hterm hf hneg
        have hz := hN hterm
        rcases hcase with ⟨he, ht'⟩ | ⟨he, ht'⟩
        · subst he
          simp [List.filter_append, List.filter_cons, Kind.isFatal, ht', hz]
        · simp [List.filter_append, List.filter_cons, he, ht', hz]
    · simp only [hji, if_false]
      rcases Nat.lt_or_ge i s.threads.length with hlt | hge
      · rw [get_update _ _ _ _ _ hlt] at hgi
        simp only [hji, if_false] at hgi
        exact hJ i b hi hgi
      · obtain ⟨hsp, hil⟩ := get_update_ge _ _ _ _ _ _ hge hgi
        have hnil : eventsOf i tr = [] :=
          eventsOf_eq_nil i tr (fun ev hev => by rw [hil]; exact hb ev hev)
        have hbt : b.isTerm = false :=
          spawn_fire s.wc a a' e sp _ (wellShaped_get _ _ _ _ hg.2.1 hget) hf b hsp
        simp [hnil, hbt]

theorem doneLast_exec (s : State) (acc : List Event) (sched : List Nat) (hg : Good s)
    (hJ : DoneLast s acc) : DoneLast (exec s sched) (acc ++ trace s sched) := by
  induction sched generalizing s acc with
  | nil => simpa [exec, trace] using hJ
  | cons j sched ih =>
    cases h : step s j with
    | none =>
      rw [exec_cons_none _ _ _ h, trace_cons_none _ _ _ h]
      exact ih s acc hg hJ
    | some r =>
      obtain ⟨e, s'⟩ := r
      rw [exec_cons_some _ _ _ _ _ h, trace_cons_some _ _ _ _ _ h]
      have := ih s' (acc ++ [⟨j, e⟩]) (good_step _ _ _ _ hg h) (doneLast_step s s' acc j e hg hJ h)
      simpa using this

theorem doneLast_init (a : Act) : DoneLast (init a) [] := by
  refine ⟨by simp, ?_⟩
  intro i b hi hget
  cases i with
  | zero => omega
  | succ i => simp [init] at hget

/-! ## Claims -/

theorem guarded_RunMain (a : Act) : (RunMain a).guarded = true := by
  unfold RunMain WaitAll wcWaitCall
  induction a <;> simp [Act.withDefer, Act.guarded, Act.andThen, Act.isTerm, *]

/-- Claim C1. `RunMain(mainFunc)` run by the original goroutine from the initial state
(count zero, no task): in every interleaving, once `RunMain` has returned or has
propagated a fault (the code of goroutine 0 is `ret` or `panic v`), the
outstanding count is zero and no goroutine started by `Go` is unfinished. -/
theorem C1_RunMain_returns_only_at_zero (mainFunc : Prog) (sched : List Nat) (m : Act)
    (hm : (exec (init (RunMain mainFunc.toAct)) sched).threads[0]? = some m)
    (hret : m.isTerm = true) :
    (exec (init (RunMain mainFunc.toAct)) sched).wc = 0 ∧
      unfinishedTasks (exec (init (RunMain mainFunc.toAct)) sched) = 0 := by
  have hc : (RunMain mainFunc.toAct).code false = true := code_RunMain _ (code_toAct _)
  have hq := quiescent_of_done _ hc (guarded_RunMain _) sched m hm hret
  have hg := good_exec _ sched (good_init _ hc)
  have hw := good_wc_eq _ hg
  rw [hq.1] at hw
  exact ⟨hq.1, by omega⟩

theorem C1_RunMain_returns_only_at_zero_witness :
    (exec (init (RunMain (Prog.go (.tick .ret) .ret).toAct)) [0, 0, 1, 1, 0]).threads[0]?
        = some Act.ret ∧
      Act.ret.isTerm = true ∧
      (exec (init (RunMain (Prog.go (.tick .ret) .ret).toAct)) [0, 0, 1, 1, 0]).wc = 0 ∧
      unfinishedTasks (exec (init (RunMain (Prog.go (.tick .ret) .ret).toAct)) [0, 0, 1, 1, 0])
        = 0 :=
  ⟨by decide, by decide,
    C1_RunMain_returns_only_at_zero (Prog.go (.tick .ret) .ret) [0, 0, 1, 1, 0] Act.ret
      (by decide) (by decide)⟩

/-- Claim C4. In every state reached from the initial state by any client program and
any interleaving, the outstanding count is non-negative and equals the number
of tasks launched with `Go` and not yet finished: the goroutines started by
`Go` that have not terminated, plus the launches whose `go` statement is the
caller's next action.  The count is the number of increments minus the number
of decrements made so far, so the decrements never outnumber the increments. -/
theorem C4_count_is_outstanding_tasks (p : Prog) (sched : List Nat) :
    0 ≤ (exec (init p.toAct) sched).wc ∧
      (exec (init p.toAct) sched).wc
        = (unfinishedTasks (exec (init p.toAct) sched) : Int)
          + (launchingTasks (exec (init p.toAct) sched) : Int) ∧
      (exec (init p.toAct) sched).wc
        = (increments (trace (init p.toAct) sched) : Int)
          - (decrements (trace (init p.toAct) sched) : Int) ∧
      decrements (trace (init p.toAct) sched) ≤ increments (trace (init p.toAct) sched) := by
  have hg0 := good_init _ (code_toAct p)
  have hg := good_exec _ sched hg0
  have h0 := good_wc_nonneg _ hg
  have hacc : (exec (init p.toAct) sched).wc
      = (increments (trace (init p.toAct) sched) : Int)
        - (decrements (trace (init p.toAct) sched) : Int) := by
    rw [exec_wc, good_netChange _ _ hg0]
    simp [init]
  exact ⟨h0, good_wc_eq _ hg, hacc, by omega⟩

theorem step_other (s s' : State) (i j : Nat) (e : Kind) (h : step s j = some (e, s'))
    (hij : j ≠ i) (hi : i < s.threads.length) : s'.threads[i]? = s.threads[i]? := by
  obtain ⟨-, a, a', sp, -, -, -, hth, -, -⟩ := step_inv s s' j e h
  rw [hth, get_update _ _ _ _ _ hi]
  simp [hij]

theorem blocked_forever (s : State) (i : Nat) (k : Act) (hg : Good s) (hi : 1 ≤ i)
    (hget : s.threads[i]? = some (.wcWait k)) (sched : List Nat) :
    1 ≤ (exec s sched).wc ∧ (exec s sched).threads[i]? = some (.wcWait k) ∧
      step (exec s sched) i = none := by
  have key : ∀ t : State, Good t → t.threads[i]? = some (.wcWait k) →
      1 ≤ t.wc ∧ step t i = none := by
    intro t ht hgt
    have hle := good_owes_le t i _ ht hgt
    have hr : roleAt false i = true := by
      simp [roleAt]
      omega
    rw [hr] at hle
    simp only [Act.owes, Act.isTerm, Act.isGo] at hle
    simp at hle
    refine ⟨hle, ?_⟩
    have hne : t.wc ≠ 0 := by omega
    unfold step
    simp [hgt, hne]
  induction sched generalizing s with
  | nil =>
    obtain ⟨h1, h2⟩ := key s hg hget
    exact ⟨h1, hget, h2⟩
  | cons j sched ih =>
    cases h : step s j with
    | none =>
      rw [exec_cons_none _ _ _ h]
      exact ih s hg hget
    | some r =>
      obtain ⟨e, s'⟩ := r
      rw [exec_cons_some _ _ _ _ _ h]
      have hji : j ≠ i := by
        intro hji
        subst hji
        rw [(key s hg hget).2] at h
        simp at h
      have hlt : i < s.threads.length := by
        rcases Nat.lt_or_ge i s.threads.length with h1 | h1
        · exact h1
        · rw [List.getElem?_eq_none h1] at hget
          simp at hget
      exact ih s' (good_step _ _ _ _ hg h) (by rw [step_other s s' i j e h hji hlt]; exact hget)

/-- Claim C10. A call of `WaitAll` (alone or as the deferred call of `RunMain`) made inside
the callback of a task launched with `Go` never returns.  Goroutine `i ≥ 1`
was started by `Go`; once it stands at the `wc.Wait()` of such a call, then in
every continuation of the interleaving the outstanding count is at least 1
(its own increment is still unmatched), the goroutine has not moved past the
wait, and its step is not enabled. -/
theorem C10_wait_inside_task_never_returns (p : Prog) (sched : List Nat) (i : Nat) (k : Act)
    (hi : 1 ≤ i) (hget : (exec (init p.toAct) sched).threads[i]? = some (.wcWait k))
    (more : List Nat) :
    1 ≤ (exec (exec (init p.toAct) sched) more).wc ∧
      (exec (exec (init p.toAct) sched) more).threads[i]? = some (.wcWait k) ∧
      step (exec (exec (init p.toAct) sched) more) i = none :=
  blocked_forever _ i k (good_reach p sched) hi hget more

theorem C10_wait_inside_task_never_returns_witness :
    1 ≤ 1 ∧
      (exec (init (Prog.go (.waitAll .ret) (.waitAll .ret)).toAct) [0, 0]).threads[1]?
        = some (.wcWait (goClosure .ret)) ∧
      1 ≤ (exec (exec (init (Prog.go (.waitAll .ret) (.waitAll .ret)).toAct) [0, 0])
              [1, 0, 1, 1]).wc ∧
      (exec (exec (init (Prog.go (.waitAll .ret) (.waitAll .ret)).toAct) [0, 0])
              [1, 0, 1, 1]).threads[1]? = some (.wcWait (goClosure .ret)) ∧
      step (exec (exec (init (Prog.go (.waitAll .ret) (.waitAll .ret)).toAct) [0, 0])
              [1, 0, 1, 1]) 1 = none :=
  ⟨by decide, by decide,
    C10_wait_inside_task_never_returns (Prog.go (.waitAll .ret) (.waitAll .ret)) [0, 0] 1
      (goClosure .ret) (by decide) (by decide) [1, 0, 1, 1]⟩

theorem waitAll_returns_at_zero (s : State) (i : Nat) (k : Act) (hz : s.wc = 0)
    (hc : s.crashed = none) (hget : s.threads[i]? = some (WaitAll.andThen k)) :
    step s i = some (.wait, { s with threads := s.threads.set i k }) := by
  have hget' : s.threads[i]? = some (.wcWait k) := by
    simpa [WaitAll, wcWaitCall, Act.andThen] using hget
  unfold step
  simp [hc, hget', hz]

/-- Claim C8. With the outstanding count at zero, `WaitAll` returns at once and leaves the
state as it was: any number `n` of consecutive calls made by goroutine `i`
return in `n` steps of that goroutine, and the state reached is the state in
which the goroutine made no call at all (same count zero, same pool except
that goroutine `i` stands after the calls). -/
theorem C8_WaitAll_at_zero_is_idempotent (s : State) (i n : Nat) (k : Act) (hz : s.wc = 0)
    (hc : s.crashed = none) (hget : s.threads[i]? = some (repeatWaitAll n k)) :
    exec s (List.replicate n i) = { s with threads := s.threads.set i k } ∧
      (exec s (List.replicate n i)).wc = 0 := by
  have main : exec s (List.replicate n i) = { s with threads := s.threads.set i k } := by
    induction n generalizing s with
    | zero =>
      simp only [repeatWaitAll] at hget
      simp [exec, set_same _ _ _ hget]
    | succ n ih =>
      have hst := waitAll_returns_at_zero s i (repeatWaitAll n k) hz hc hget
      have hlt := get_lt _ _ _ hget
      rw [List.replicate_succ, exec_cons_some _ _ _ _ _ hst]
      have hnext := ih { s with threads := s.threads.set i (repeatWaitAll n k) } hz hc
        (get_set_self _ _ _ hlt)
      rw [hnext]
      simp
  exact ⟨main, by rw [main]; exact hz⟩

theorem C8_WaitAll_at_zero_is_idempotent_witness :
    (init (repeatWaitAll 3 .ret)).wc = 0 ∧ (init (repeatWaitAll 3 .ret)).crashed = none ∧
      (init (repeatWaitAll 3 .ret)).threads[0]? = some (repeatWaitAll 3 .ret) ∧
      exec (init (repeatWaitAll 3 .ret)) (List.replicate 3 0)
        = { init (repeatWaitAll 3 .ret) with
            threads := (init (repeatWaitAll 3 .ret)).threads.set 0 .ret } ∧
      (exec (init (repeatWaitAll 3 .ret)) (List.replicate 3 0)).wc = 0 :=
  ⟨by decide, by decide, by decide,
    C8_WaitAll_at_zero_is_idempotent (init (repeatWaitAll 3 .ret)) 0 3 .ret
      (by decide) (by decide) (by decide)⟩

/-- Claim C6. `RunMain(mainFunc)` called by goroutine `i`, with `k` the code of the caller
after the call.  While `mainFunc` has not terminated, the step of the
goroutine is the step of `mainFunc` itself, made in place by the calling
goroutine, and what remains is `RunMain` of the rest of `mainFunc`.  When
`mainFunc` has returned, the one remaining action before the caller goes on
with `k` is the wait of `WaitAll`; when `mainFunc` has raised the fault `v`,
the one remaining action is the same wait and afterwards the goroutine
carries the fault `v` itself, the caller's code `k` being skipped. -/
theorem C6_RunMain_runs_mainFunc_then_WaitAll (s : State) (i : Nat) (mainFunc k : Act)
    (hc : s.crashed = none) (hget : s.threads[i]? = some ((RunMain mainFunc).andThen k)) :
    (mainFunc = .ret →
        step s i = if s.wc = 0 then some (.wait, { s with threads := s.threads.set i k })
                   else none) ∧
      (∀ v, mainFunc = .panic v →
        step s i = if s.wc = 0
                   then some (.wait, { s with threads := s.threads.set i (.panic v) })
                   else none) ∧
      (mainFunc.isTerm = false →
        step s i = (step { s with threads := s.threads.set i mainFunc } i).map
          (fun r => (r.1, { r.2 with
            threads := r.2.threads.set i ((RunMain (r.2.threads.getD i .ret)).andThen k) }))) := by
  have hlt := get_lt _ _ _ hget
  refine ⟨?_, ?_, ?_⟩
  · rintro rfl
    have hget' : s.threads[i]? = some (.wcWait k) := by
      simpa [RunMain, Act.withDefer, WaitAll, wcWaitCall, Act.andThen] using hget
    unfold step
    simp [hc, hget']
  · rintro v rfl
    have hget' : s.threads[i]? = some (.wcWait (.panic v)) := by
      simpa [RunMain, Act.withDefer, WaitAll, wcWaitCall, Act.andThen] using hget
    unfold step
    simp [hc, hget']
  · intro hnt
    cases mainFunc with
    | ret => simp [Act.isTerm] at hnt
    | panic v => simp [Act.isTerm] at hnt
    | spin =>
      have hget' : s.threads[i]? = some .spin := by
        simpa [RunMain, Act.withDefer, Act.andThen] using hget
      unfold step
      simp [hc, hget', hlt, RunMain, Act.withDefer, Act.andThen, set_same _ _ _ hget']
      obtain ⟨wc, th, hits, cr⟩ := s
      simp only at hc
      subst hc
      rfl
    | tick f =>
      have hget' : s.threads[i]? = some (.tick ((RunMain f).andThen k)) := by
        simpa [RunMain, Act.withDefer, Act.andThen] using hget
      unfold step
      simp [hc, hget', hlt]
    | wcAdd d f h =>
      have hget' : s.threads[i]?
          = some (.wcAdd d ((RunMain f).andThen k) ((RunMain h).andThen k)) := by
        simpa [RunMain, Act.withDefer, Act.andThen] using hget
      unfold step
      by_cases hneg : s.wc + d < 0 <;> simp [hc, hget', hlt, hneg]
    | wcWait f =>
      have hget' : s.threads[i]? = some (.wcWait ((RunMain f).andThen k)) := by
        simpa [RunMain, Act.withDefer, Act.andThen] using hget
      unfold step
      by_cases hz : s.wc = 0 <;> simp [hc, hget', hlt, hz]
    | goStmt b f =>
      have hget' : s.threads[i]? = some (.goStmt b ((RunMain f).andThen k)) := by
        simpa [RunMain, Act.withDefer, Act.andThen] using hget
      unfold step
      simp [hc, hget', hlt, List.getElem?_append_left, List.set_append_left]

/-- Claim C9 as stated is refuted. With the entry function `launchThenPanic` and the
schedule that runs the original goroutine three times, `RunMain` is blocked in
its deferred `WaitAll` (count 1, no crash, two actions made) while the main
body with a trailing `WaitAll` has skipped the wait and crashed with the fault
7 (three actions made, the task still outstanding). -/
theorem C9_counterexample :
    (exec (init (RunMain launchThenPanic.toAct)) [0, 0, 0]).crashed = none ∧
      trace (init (RunMain launchThenPanic.toAct)) [0, 0, 0] = [⟨0, .add 1⟩, ⟨0, .spawn⟩] ∧
      (exec (init (inlineMain launchThenPanic.toAct)) [0, 0, 0]).crashed = some 7 ∧
      trace (init (inlineMain launchThenPanic.toAct)) [0, 0, 0]
        = [⟨0, .add 1⟩, ⟨0, .spawn⟩, ⟨0, .fatal 7⟩] ∧
      (exec (init (inlineMain launchThenPanic.toAct)) [0, 0, 0]).wc = 1 := by
  decide

/-- Claim C9, amended. For every entry function that raises no fault of its own,
`RunMain(mainFunc)` and the main body that runs the code of `mainFunc` and then
calls `WaitAll` behave alike in every interleaving: same sequence of actions,
same counter, same ticks, same crash status, and every goroutine ends the same
way. -/
theorem C9_RunMain_is_trailing_WaitAll_without_fault (mainFunc : Prog)
    (hno : mainFunc.toAct.noPanic = true) (sched : List Nat) :
    trace (init (RunMain mainFunc.toAct)) sched
        = trace (init (inlineMain mainFunc.toAct)) sched ∧
      (exec (init (RunMain mainFunc.toAct)) sched).wc
        = (exec (init (inlineMain mainFunc.toAct)) sched).wc ∧
      (exec (init (RunMain mainFunc.toAct)) sched).hits
        = (exec (init (inlineMain mainFunc.toAct)) sched).hits ∧
      (exec (init (RunMain mainFunc.toAct)) sched).crashed
        = (exec (init (inlineMain mainFunc.toAct)) sched).crashed ∧
      (exec (init (RunMain mainFunc.toAct)) sched).threads.map Act.outcome
        = (exec (init (inlineMain mainFunc.toAct)) sched).threads.map Act.outcome := by
  have hg : Good (init (RunMain mainFunc.toAct)) :=
    good_init _ (code_RunMain _ (code_toAct _))
  have hr : Related (init (RunMain mainFunc.toAct)) (init (inlineMain mainFunc.toAct)) :=
    ⟨rfl, rfl, rfl, by simp [init, agreeAll, agree_RunMain_inlineMain _ hno]⟩
  obtain ⟨ht, h1, h2, h3, h4⟩ := related_exec _ _ sched hg hr
  exact ⟨ht, h1, h2, h3, outcomes_of_agreeAll _ _ h4⟩

theorem C9_RunMain_is_trailing_WaitAll_without_fault_witness :
    (Prog.go (.tick .ret) .ret).toAct.noPanic = true ∧
      trace (init (RunMain (Prog.go (.tick .ret) .ret).toAct)) [0, 0, 1, 1, 0]
        = trace (init (inlineMain (Prog.go (.tick .ret) .ret).toAct)) [0, 0, 1, 1, 0] :=
  ⟨by decide,
    (C9_RunMain_is_trailing_WaitAll_without_fault (Prog.go (.tick .ret) .ret) (by decide)
      [0, 0, 1, 1, 0]).1⟩

theorem increments_split (i : Nat) (tr : List Event) :
    increments tr
      = ((eventsOf i tr).filter (fun k => decide (k = .add 1))).length
        + incrementsByOthers i tr := by
  unfold increments incrementsByOthers eventsOf increments
  induction tr with
  | nil => rfl
  | cons e tr ih =>
    by_cases h1 : e.tid = i <;> by_cases h2 : e.kind = .add 1 <;>
      simp [List.filter_cons, h1, h2] at ih ⊢ <;> omega

/-- Claim C2 as stated is refuted. In the state reached by `nestedLaunch` after the
original goroutine launched its first task, the count is 1 and the original
goroutine is about to call `Go` again.  Along the schedule `[0, 1, 1, 0]` it
makes exactly the two actions of that `Go`, no task finishes in between, and
yet the count it finds is 3 and not 1 + 1 - 0: the first task launched a task
of its own in between. -/
theorem C2_counterexample :
    (exec (init nestedLaunch.toAct) [0, 0]).threads[0]?
        = some ((Go Act.ret).andThen Act.ret) ∧
      (exec (init nestedLaunch.toAct) [0, 0]).wc = 1 ∧
      eventsOf 0 (trace (exec (init nestedLaunch.toAct) [0, 0]) [0, 1, 1, 0])
        = [.add 1, .spawn] ∧
      decrements (trace (exec (init nestedLaunch.toAct) [0, 0]) [0, 1, 1, 0]) = 0 ∧
      (exec (exec (init nestedLaunch.toAct) [0, 0]) [0, 1, 1, 0]).wc = 3 := by
  decide

/-- Claim C2, amended. In a reachable state in which goroutine `i` is about to run
`Go(callback)`: the first action of the goroutine is the increment of the
count by exactly 1, made by the caller itself while the new goroutine does not
exist yet (the pool keeps its length); the second one is the `go` statement,
which adds the goroutine `defer wc.Done(); callback()` to the pool.  Along
every interleaving in which goroutine `i` makes exactly these two actions, the
count found afterwards is the old count plus 1, plus the increments made by
other goroutines in between, minus the decrements (tasks finished) in
between. -/
theorem C2_Go_increments_then_spawns (p : Prog) (pre : List Nat) (i : Nat) (callback k : Act)
    (hc : (exec (init p.toAct) pre).crashed = none)
    (hget : (exec (init p.toAct) pre).threads[i]? = some ((Go callback).andThen k))
    (sched : List Nat)
    (hev : eventsOf i (trace (exec (init p.toAct) pre) sched) = [.add 1, .spawn]) :
    step (exec (init p.toAct) pre) i
        = some (.add 1, { exec (init p.toAct) pre with
            wc := (exec (init p.toAct) pre).wc + 1,
            threads := (exec (init p.toAct) pre).threads.set i
              (.goStmt (goClosure callback) k) }) ∧
      step { exec (init p.toAct) pre with
            wc := (exec (init p.toAct) pre).wc + 1,
            threads := (exec (init p.toAct) pre).threads.set i
              (.goStmt (goClosure callback) k) } i
        = some (.spawn, { exec (init p.toAct) pre with
            wc := (exec (init p.toAct) pre).wc + 1,
            threads := (exec (init p.toAct) pre).threads.set i k ++ [goClosure callback] }) ∧
      (exec (exec (init p.toAct) pre) sched).wc
        = (exec (init p.toAct) pre).wc + 1
          + (incrementsByOthers i (trace (exec (init p.toAct) pre) sched) : Int)
          - (decrements (trace (exec (init p.toAct) pre) sched) : Int) := by
  have hg := good_reach p pre
  have h0 := good_wc_nonneg _ hg
  have hlt := get_lt _ _ _ hget
  have hget' : (exec (init p.toAct) pre).threads[i]?
      = some (.wcAdd 1 (.goStmt (goClosure callback) k) (.panic negativeCounter)) := by
    simpa [Go, wcAddCall, Act.andThen] using hget
  have hno : ¬ ((exec (init p.toAct) pre).wc + 1 < 0) := by omega
  refine ⟨?_, ?_, ?_⟩
  · unfold step
    simp [hc, hget', hno]
  · unfold step
    simp [hc, hlt]
  · rw [exec_wc, good_netChange _ _ hg, increments_split i, hev]
    simp
    omega

theorem C2_Go_increments_then_spawns_witness :
    (exec (init nestedLaunch.toAct) [0, 0]).crashed = none ∧
      (exec (init nestedLaunch.toAct) [0, 0]).threads[0]?
        = some ((Go Act.ret).andThen Act.ret) ∧
      eventsOf 0 (trace (exec (init nestedLaunch.toAct) [0, 0]) [0, 1, 1, 0])
        = [.add 1, .spawn] ∧
      (exec (exec (init nestedLaunch.toAct) [0, 0]) [0, 1, 1, 0]).wc
        = (exec (init nestedLaunch.toAct) [0, 0]).wc + 1
          + (incrementsByOthers 0 (trace (exec (init nestedLaunch.toAct) [0, 0]) [0, 1, 1, 0])
              : Int)
          - (decrements (trace (exec (init nestedLaunch.toAct) [0, 0]) [0, 1, 1, 0]) : Int) :=
  ⟨by decide, by decide, by decide,
    (C2_Go_increments_then_spawns nestedLaunch [0, 0] 0 Act.ret Act.ret (by decide) (by decide)
      [0, 1, 1, 0] (by decide)).2.2⟩

theorem C6_RunMain_runs_mainFunc_then_WaitAll_witness :
    (init ((RunMain (.tick .ret)).andThen .ret)).crashed = none ∧
      (init ((RunMain (.tick .ret)).andThen .ret)).threads[0]?
        = some ((RunMain (.tick .ret)).andThen .ret) ∧
      step (init ((RunMain (.tick .ret)).andThen .ret)) 0
        = (step { init ((RunMain (.tick .ret)).andThen .ret) with
              threads := (init ((RunMain (.tick .ret)).andThen .ret)).threads.set 0
                (.tick .ret) } 0).map
          (fun r => (r.1, { r.2 with
            threads := r.2.threads.set 0
              ((RunMain (r.2.threads.getD 0 .ret)).andThen .ret) })) :=
  ⟨by decide, by decide,
    (C6_RunMain_runs_mainFunc_then_WaitAll (init ((RunMain (.tick .ret)).andThen .ret)) 0
      (.tick .ret) .ret (by decide) (by decide)).2.2 (by decide)⟩

set_option maxRecDepth 100000 in
/-- Claim C5 as stated is refuted. One faulting task launched first, then nine ticking
tasks, then `WaitAll`.  Along `faultFirst` the original goroutine is blocked
in `WaitAll` with nine tasks outstanding when the faulting task runs: its
deferred `wc.Done()` is executed (count 9), then the unrecovered fault ends
the program.  No goroutine can move any more, `WaitAll` has not returned, and
the success counter reads 0. -/
theorem C5_counterexample :
    (exec (init (faultScenario 0 9 1).toAct) faultFirst).crashed = some 1 ∧
      (exec (init (faultScenario 0 9 1).toAct) faultFirst).hits = 0 ∧
      (exec (init (faultScenario 0 9 1).toAct) faultFirst).wc = 9 ∧
      (exec (init (faultScenario 0 9 1).toAct) faultFirst).threads[0]? = some (.wcWait .ret) ∧
      (List.range 11).all
        (fun j => (step (exec (init (faultScenario 0 9 1).toAct) faultFirst) j).isNone) = true := by
  decide

/-- Claim C5, amended. In the scenario of one faulting and nine ticking tasks followed by
`WaitAll`, in every interleaving: if `WaitAll` has returned (the original
goroutine has reached its end) then the success counter reads 9 and the
outstanding count is zero.  (`WaitAll` need not return: the unrecovered fault
of the task ends the program.) -/
theorem C5_nine_successes_when_WaitAll_returns (n m v : Nat) (hn : n + m = 9)
    (sched : List Nat)
    (hret : (exec (init (faultScenario n m v).toAct) sched).threads[0]? = some .ret) :
    (exec (init (faultScenario n m v).toAct) sched).hits = 9 ∧
      (exec (init (faultScenario n m v).toAct) sched).wc = 0 := by
  have hc := code_toAct (faultScenario n m v)
  have hgu : (faultScenario n m v).toAct.guarded = true :=
    guarded_launchAll _ _ (by rw [toAct_waitAll]; rfl)
  have hg0 := good_init _ hc
  have hg := good_exec _ sched hg0
  obtain ⟨hz, -⟩ := quiescent_of_done _ hc hgu sched .ret hret rfl
  have hrest := total_at_rest 1 0 _ hg hz .ret hret rfl
  rw [total_exec 1 0 _ sched hg0] at hrest
  have hinit : total 1 0 (init (faultScenario n m v).toAct) = n + m := by
    unfold total faultScenario
    simp only [init, List.map_cons, List.map_nil, List.sum_cons, List.sum_nil]
    rw [ahead_launchAll, toAct_waitAll]
    simp [Prog.toAct, Act.ahead]
  rw [hinit] at hrest
  exact ⟨by omega, hz⟩

set_option maxRecDepth 100000 in
theorem C5_nine_successes_when_WaitAll_returns_witness :
    0 + 9 = 9 ∧
      (exec (init (faultScenario 0 9 1).toAct) faultLast).threads[0]? = some .ret ∧
      (exec (init (faultScenario 0 9 1).toAct) faultLast).hits = 9 ∧
      (exec (init (faultScenario 0 9 1).toAct) faultLast).wc = 0 :=
  ⟨by decide, by decide,
    C5_nine_successes_when_WaitAll_returns 0 9 1 (by decide) faultLast (by decide)⟩

theorem chain_main_code (D : Nat) (sched : List Nat) :
    ∃ m, (exec (init (chainMain D).toAct) sched).threads[0]? = some m ∧
      (m = (chainMain D).toAct ∨ (∃ b, m = .goStmt b (.wcWait .ret)) ∨ m = .wcWait .ret
        ∨ m = .ret) := by
  refine main_within
    (fun m => m = (chainMain D).toAct ∨ (∃ b, m = .goStmt b (.wcWait .ret)) ∨ m = .wcWait .ret
      ∨ m = .ret) ?_ _ (good_init _ (code_toAct _)) _ (by simp [init]) (Or.inl rfl) sched
  intro wc a a' e sp hS hf hneg
  rcases hS with rfl | ⟨b, rfl⟩ | rfl | rfl
  · cases D with
    | zero =>
      rw [chainMain, toAct_waitAll] at hf
      by_cases hz : wc = 0
      · simp [fire, hz, Prog.toAct] at hf
        exact Or.inr (Or.inr (Or.inr hf.2.1.symm))
      · simp [fire, hz] at hf
    | succ D =>
      rw [chainMain, toAct_go, toAct_waitAll] at hf hneg
      have := hneg _ _ _ rfl
      simp [fire, this, Prog.toAct] at hf
      exact Or.inr (Or.inl ⟨_, hf.2.1.symm⟩)
  · simp [fire] at hf
    exact Or.inr (Or.inr (Or.inl hf.2.1.symm))
  · by_cases hz : wc = 0
    · simp [fire, hz] at hf
      exact Or.inr (Or.inr (Or.inr hf.2.1.symm))
    · simp [fire, hz] at hf
  · simp [fire] at hf

theorem chain_at_rest (D : Nat) (sched : List Nat) (m : Act)
    (hz : (exec (init (chainMain D).toAct) sched).wc = 0)
    (hm : (exec (init (chainMain D).toAct) sched).threads[0]? = some m)
    (h0 : m.ahead 0 1 = 0) :
    (exec (init (chainMain D).toAct) sched).threads.length = D + 1 ∧
      unfinishedTasks (exec (init (chainMain D).toAct) sched) = 0 := by
  have hg0 := good_init _ (code_toAct (chainMain D))
  have hg := good_exec _ sched hg0
  have hrest := total_at_rest 0 1 _ hg hz m hm h0
  rw [total_exec 0 1 _ sched hg0] at hrest
  have hinit : total 0 1 (init (chainMain D).toAct) = 1 + D := by
    unfold total
    simp [init, ahead_chainMain]
  rw [hinit] at hrest
  have hw := good_wc_eq _ hg
  rw [hz] at hw
  exact ⟨by omega, by omega⟩

/-- Claim C7. The original goroutine launches the first task of a chain of `D` tasks, each
of which launches the next one and returns, then calls `WaitAll`.  In every
interleaving: once `WaitAll` has returned (the original goroutine has reached
its end), the count is zero, all `D` tasks have been created and none is
unfinished; and whenever the count is zero, either the original goroutine has
not yet started its first `Go`, or all `D` tasks have been created and have
finished. -/
theorem C7_chain_is_awaited (D : Nat) (sched : List Nat) :
    ((exec (init (chainMain D).toAct) sched).threads[0]? = some .ret →
        (exec (init (chainMain D).toAct) sched).wc = 0 ∧
        (exec (init (chainMain D).toAct) sched).threads.length = D + 1 ∧
        unfinishedTasks (exec (init (chainMain D).toAct) sched) = 0) ∧
      ((exec (init (chainMain D).toAct) sched).wc = 0 →
        (exec (init (chainMain D).toAct) sched).threads[0]? = some (chainMain D).toAct ∨
        ((exec (init (chainMain D).toAct) sched).threads.length = D + 1 ∧
          unfinishedTasks (exec (init (chainMain D).toAct) sched) = 0)) := by
  have hc := code_toAct (chainMain D)
  have hg := good_exec _ sched (good_init _ hc)
  refine ⟨fun hret => ?_, fun hz => ?_⟩
  · obtain ⟨hz, -⟩ := quiescent_of_done _ hc (guarded_chainMain D) sched .ret hret rfl
    exact ⟨hz, chain_at_rest D sched .ret hz hret rfl⟩
  · obtain ⟨m, hm, hcase⟩ := chain_main_code D sched
    rcases hcase with rfl | ⟨b, rfl⟩ | rfl | rfl
    · exact Or.inl hm
    · have hle := good_owes_le _ 0 _ hg hm
      rw [hz] at hle
      simp [Act.owes, Act.isGo, roleAt] at hle
    · exact Or.inr (chain_at_rest D sched _ hz hm rfl)
    · exact Or.inr (chain_at_rest D sched _ hz hm rfl)

theorem C7_chain_is_awaited_witness :
    (exec (init (chainMain 2).toAct) [0, 0, 1, 1, 1, 2, 0]).threads[0]? = some .ret ∧
      (exec (init (chainMain 2).toAct) [0, 0, 1, 1, 1, 2, 0]).wc = 0 ∧
      (exec (init (chainMain 2).toAct) [0, 0, 1, 1, 1, 2, 0]).threads.length = 2 + 1 ∧
      unfinishedTasks (exec (init (chainMain 2).toAct) [0, 0, 1, 1, 1, 2, 0]) = 0 :=
  ⟨by decide, (C7_chain_is_awaited 2 [0, 0, 1, 1, 1, 2, 0]).1 (by decide)⟩

/-- Claim C3. A task launched with `Go` is a goroutine `i ≥ 1` of the pool, running
`defer wc.Done(); callback()`.  In every reachable state: if the goroutine has
terminated (its callback returned, or raised a fault that unwound to the top),
it executed `wc.Done()` exactly once and that was its last action; if it has
not terminated, it has not executed `wc.Done()` yet.  And once the callback
has terminated, by a return or by a fault, the next action of the goroutine is
`wc.Done()`: it is enabled, it decrements the count by one and leaves the
goroutine terminated the way the callback ended. -/
theorem C3_Done_exactly_once_and_last (p : Prog) (sched : List Nat) (i : Nat) (a : Act)
    (hi : 1 ≤ i) (hget : (exec (init p.toAct) sched).threads[i]? = some a) :
    (a.isTerm = true →
        (actionsOf i (trace (init p.toAct) sched)).getLast? = some (.add (-1)) ∧
        doneCount i (trace (init p.toAct) sched) = 1) ∧
      (a.isTerm = false → doneCount i (trace (init p.toAct) sched) = 0) ∧
      (∀ callback : Act, callback.isTerm = true → a = goClosure callback →
        (exec (init p.toAct) sched).crashed = none →
        step (exec (init p.toAct) sched) i
          = some (.add (-1), { exec (init p.toAct) sched with
              wc := (exec (init p.toAct) sched).wc + -1,
              threads := (exec (init p.toAct) sched).threads.set i callback })) := by
  have hg := good_reach p sched
  have hJ := doneLast_exec (init p.toAct) [] sched (good_init _ (code_toAct p))
    (doneLast_init _)
  simp only [List.nil_append] at hJ
  obtain ⟨h1, h2⟩ := hJ.2 i a hi hget
  refine ⟨h1, h2, ?_⟩
  intro cb hcb ha hc
  have hform : a = .wcAdd (-1) cb (.panic negativeCounter) := by
    rw [ha]
    cases cb <;> simp [Act.isTerm] at hcb <;>
      simp [goClosure, Act.withDefer, wcDone, wcAddCall, Act.andThen]
  have hno := good_fire _ i a hg hget (-1) cb (.panic negativeCounter) hform
  rw [hform] at hget
  unfold step
  simp [hc, hget, hno]

theorem C3_Done_exactly_once_and_last_witness :
    1 ≤ 1 ∧
      (exec (init (Prog.go (.tick .ret) .ret).toAct) [0, 0, 1, 1]).threads[1]? = some .ret ∧
      (actionsOf 1 (trace (init (Prog.go (.tick .ret) .ret).toAct) [0, 0, 1, 1])).getLast?
        = some (.add (-1)) ∧
      doneCount 1 (trace (init (Prog.go (.tick .ret) .ret).toAct) [0, 0, 1, 1]) = 1 :=
  ⟨by decide, by decide,
    (C3_Done_exactly_once_and_last (Prog.go (.tick .ret) .ret) [0, 0, 1, 1] 1 .ret
      (by decide) (by decide)).1 (by decide)⟩

end Goasync
